import Mathlib

/-!
Verification of the term-rewriting library (files src/types/atom.rs and
src/types/trs.rs) against its natural-language specification.

The embedding conventions:
* The shared signature registry is modelled as an immutable value
  (a list of operator records and a list of variable records); the Rust
  code threads one signature through every operation we study, so an
  operator or variable handle is modelled by its index alone and two
  handles are equal exactly when their indices are (the Rust comparison
  additionally compares the backing stores, which coincide here).
* Functions that mutate a value in place are modelled by returning the
  new value; a Rust Result<T, E> on a mutated receiver becomes a pair of
  the new receiver and an Option/Except error.
* Floating point numbers of the edit-distance computation are modelled
  by rational numbers: every arithmetic operation exercised by the
  claims is exact in f64.
* Functions from files of this repository that are not part of the
  provided sources (Term, Rule and the unifier) are modelled from the
  specification; their doc comments say so explicitly.
-/

namespace TermRewriting

/-- Record store of a signature: ordered operator records (arity, name)
and ordered variable records (name), per the spec, section 3. -/
structure Signature where
  operators : List (Nat × Option String)
  vars : List (Option String)
deriving DecidableEq

/-- Handle of a registered variable (src/types/atom.rs, struct Variable);
the shared signature is implicit, see the header comment. -/
structure Variable where
  id : Nat
deriving DecidableEq

/-- Handle of a registered operator (src/types/atom.rs, struct Operator). -/
structure Operator where
  id : Nat
deriving DecidableEq

/-- Arity lookup (src/types/atom.rs, Operator::arity); the Rust indexing
panics when the handle is not registered, we return the arity 0 default
in that unreachable case. -/
def Operator.arity (o : Operator) (sig : Signature) : Nat :=
  (sig.operators.getD o.id (0, none)).1

/-- Name lookup (src/types/atom.rs, Operator::name). -/
def Operator.name (o : Operator) (sig : Signature) : Option String :=
  (sig.operators.getD o.id (0, none)).2

/-- Name lookup (src/types/atom.rs, Variable::name). -/
def Variable.name (v : Variable) (sig : Signature) : Option String :=
  sig.vars.getD v.id none

/-- Serialization of an operator (src/types/atom.rs, Operator::display):
the name when present, otherwise op followed by the decimal index. -/
def Operator.display (o : Operator) (sig : Signature) : String :=
  match (sig.operators.getD o.id (0, none)).2 with
  | some name => name
  | none => "op" ++ Nat.repr o.id

/-- Serialization of a variable (src/types/atom.rs, Variable::display):
the name with a trailing underscore when present, otherwise var, the
decimal index and a trailing underscore. -/
def Variable.display (v : Variable) (sig : Signature) : String :=
  match sig.vars.getD v.id none with
  | some name => name ++ "_"
  | none => "var" ++ Nat.repr v.id ++ "_"

/-- Atoms (src/types/atom.rs, enum Atom). -/
inductive Atom where
  | var (v : Variable)
  | op (o : Operator)
deriving DecidableEq

/-- Serialization of an atom (src/types/atom.rs, Atom::display). -/
def Atom.display (a : Atom) (sig : Signature) : String :=
  match a with
  | .var v => v.display sig
  | .op o => o.display sig

/-- Modelled from the spec: first-order terms (the Term type of the
repository is not among the provided sources); section 3 of the spec:
a term is a variable leaf or an application of an operator to an
ordered sequence of subterms. -/
inductive Term where
  | var (v : Variable)
  | app (op : Operator) (args : List Term)

mutual

/-- Structural equality of terms (the Rust Term type derives PartialEq). -/
def Term.beq : Term → Term → Bool
  | .var v, .var w => v == w
  | .app f as, .app g bs => f == g && Term.beqArgs as bs
  | _, _ => false

/-- Structural equality of argument lists. -/
def Term.beqArgs : List Term → List Term → Bool
  | [], [] => true
  | a :: as, b :: bs => Term.beq a b && Term.beqArgs as bs
  | _, _ => false

end

mutual

theorem Term.beq_iff : ∀ a b : Term, Term.beq a b = true ↔ a = b
  | .var v, .var w => by
    simp [Term.beq, beq_iff_eq]
  | .var _, .app _ _ => by
    simp [Term.beq]
  | .app _ _, .var _ => by
    simp [Term.beq]
  | .app f as, .app g bs => by
    simp only [Term.beq, Bool.and_eq_true, beq_iff_eq, Term.beqArgs_iff as bs, Term.app.injEq]

theorem Term.beqArgs_iff : ∀ as bs : List Term, Term.beqArgs as bs = true ↔ as = bs
  | [], [] => by simp [Term.beqArgs]
  | [], _ :: _ => by simp [Term.beqArgs]
  | _ :: _, [] => by simp [Term.beqArgs]
  | a :: as, b :: bs => by
    simp only [Term.beqArgs, Bool.and_eq_true, Term.beq_iff a b, Term.beqArgs_iff as bs,
      List.cons.injEq]

end

instance : DecidableEq Term := fun a b =>
  decidable_of_iff (Term.beq a b = true) (Term.beq_iff a b)

mutual

/-- Number of nodes of a term, used as a termination measure. -/
def Term.size : Term → Nat
  | .var _ => 1
  | .app _ args => 1 + Term.sizeArgs args

/-- Total number of nodes of an argument list. -/
def Term.sizeArgs : List Term → Nat
  | [] => 0
  | a :: as => a.size + Term.sizeArgs as

end

theorem Term.size_pos (t : Term) : 0 < t.size := by
  cases t <;> simp [Term.size]

/-- Total size of the left components of a work list of term pairs, the
termination measure of the matching procedures. -/
def pairsSize (ps : List (Term × Term)) : Nat := (ps.map fun p => p.1.size).sum

theorem pairsSize_cons (p : Term × Term) (ps : List (Term × Term)) :
    pairsSize (p :: ps) = p.1.size + pairsSize ps := by
  simp [pairsSize]

theorem pairsSize_append (ps qs : List (Term × Term)) :
    pairsSize (ps ++ qs) = pairsSize ps + pairsSize qs := by
  simp [pairsSize]

theorem pairsSize_zip (as bs : List Term) (h : as.length ≤ bs.length) :
    pairsSize (as.zip bs) = Term.sizeArgs as := by
  induction as generalizing bs with
  | nil => simp [pairsSize, Term.sizeArgs]
  | cons a l ih =>
    cases bs with
    | nil => simp at h
    | cons b bs2 =>
      rw [List.zip_cons_cons, pairsSize_cons, Term.sizeArgs]
      simp only [List.length_cons, Nat.add_le_add_iff_right] at h
      rw [ih bs2 h]

theorem pairsSize_zip_lt (f : Operator) (as bs : List Term) (h : as.length = bs.length) :
    pairsSize (as.zip bs) < (Term.app f as).size := by
  rw [pairsSize_zip as bs (le_of_eq h), Term.size]
  omega

/-- Modelled from the spec: lookup of a variable (by index) in an
association-list substitution; the spec (section 3) represents a
substitution as a mapping from variables to terms. -/
def subLookup : List (Nat × Term) → Nat → Option Term
  | [], _ => none
  | (k, t) :: rest, v => if k = v then some t else subLookup rest v

mutual

/-- Modelled from the spec: Term::substitute (sections 3 and 4.2)
structurally replaces each mapped variable with its image and leaves
unmapped variables unchanged. -/
def Term.substitute : Term → List (Nat × Term) → Term
  | .var v, σ => (subLookup σ v.id).getD (.var v)
  | .app op args, σ => .app op (Term.substituteArgs args σ)

/-- Pointwise substitution on an argument list. -/
def Term.substituteArgs : List Term → List (Nat × Term) → List Term
  | [], _ => []
  | a :: as, σ => a.substitute σ :: Term.substituteArgs as σ

end

/-- Modelled from the spec (section 4.3): the matching work-list
procedure where only left-hand-side variables may bind and the right
side is rigid; the bind-and-compose step of the spec is realised as
bind on first occurrence and a syntactic-equality check on later
occurrences, which is equivalent because bound images are rigid. -/
def pmatchGo : List (Nat × Term) → List (Term × Term) → Option (List (Nat × Term))
  | σ, [] => some σ
  | σ, (Term.var a, t) :: rest =>
    (match subLookup σ a.id with
     | some u => if u = t then pmatchGo σ rest else none
     | none => pmatchGo (σ ++ [(a.id, t)]) rest)
  | σ, (Term.app f as, Term.app g bs) :: rest =>
    if h : f = g ∧ as.length = bs.length then pmatchGo σ (as.zip bs ++ rest) else none
  | _, (Term.app _ _, Term.var _) :: _ => none
termination_by σ ps => pairsSize ps
decreasing_by
  · have := Term.size_pos (Term.var a)
    simp only [pairsSize_cons]
    omega
  · have := Term.size_pos (Term.var a)
    simp only [pairsSize_cons]
    omega
  · have := pairsSize_zip_lt f as bs h.2
    simp only [pairsSize_cons, pairsSize_append]
    omega

/-- Modelled from the spec (section 4.3): Term::pmatch on a work list of
pairs, starting from the empty substitution. -/
def Term.pmatch (ps : List (Term × Term)) : Option (List (Nat × Term)) :=
  pmatchGo [] ps

/-- Modelled from the spec (section 4.3): the alpha-equivalence work-list
procedure; only variable-to-variable renamings are admitted, the
renaming must be consistent and injective, and operator heads must
coincide exactly.  The accumulated renaming maps left variable indices
to right variable indices. -/
def alphaGo : List (Nat × Nat) → List (Term × Term) → Option (List (Nat × Nat))
  | m, [] => some m
  | m, (Term.var a, Term.var b) :: rest =>
    if (a.id, b.id) ∈ m then alphaGo m rest
    else if (∃ p ∈ m, p.1 = a.id) ∨ (∃ p ∈ m, p.2 = b.id) then none
    else alphaGo ((a.id, b.id) :: m) rest
  | m, (Term.app f as, Term.app g bs) :: rest =>
    if h : f = g ∧ as.length = bs.length then alphaGo m (as.zip bs ++ rest) else none
  | _, (Term.var _, Term.app _ _) :: _ => none
  | _, (Term.app _ _, Term.var _) :: _ => none
termination_by m ps => pairsSize ps
decreasing_by
  · have := Term.size_pos (Term.var a)
    simp only [pairsSize_cons]
    omega
  · have := Term.size_pos (Term.var a)
    simp only [pairsSize_cons]
    omega
  · have := pairsSize_zip_lt f as bs h.2
    simp only [pairsSize_cons, pairsSize_append]
    omega

/-- Modelled from the spec (section 4.3): Term::alpha on a work list of
pairs, starting from the empty renaming. -/
def Term.alpha (ps : List (Term × Term)) : Option (List (Nat × Nat)) :=
  alphaGo [] ps

/-- Modelled from the spec (section 4.2): Term::replace substitutes the
subterm at an integer path and returns none when the path is invalid. -/
def Term.replace : Term → List Nat → Term → Option Term
  | _, [], new => some new
  | .var _, _ :: _, _ => none
  | .app op args, i :: rest, new =>
    match args[i]? with
    | none => none
    | some a => (Term.replace a rest new).map fun b => .app op (args.set i b)
termination_by t path new => path.length

/-- Modelled from the spec (section 4.2): accessor returning the
operator and arguments of an application. -/
def Term.as_application : Term → Option (Operator × List Term)
  | .var _ => none
  | .app op args => some (op, args)

/-- Modelled from the spec (section 4.2): accessor returning the
operator and arguments when the term is an application whose operator
has the given name and arity. -/
def Term.as_guarded_application (t : Term) (sig : Signature) (name : String) (arity : Nat) :
    Option (Operator × List Term) :=
  match t with
  | .var _ => none
  | .app op args =>
    if op.name sig = some name ∧ op.arity sig = arity then some (op, args) else none

mutual

/-- Modelled from the spec: the variable indices occurring in a term, in
left-to-right occurrence order (spec section 3, collected variable
inventories). -/
def Term.varIds : Term → List Nat
  | .var v => [v.id]
  | .app _ args => Term.varIdsArgs args

/-- Variable indices occurring in an argument list. -/
def Term.varIdsArgs : List Term → List Nat
  | [] => []
  | a :: as => a.varIds ++ Term.varIdsArgs as

end

/-- Is the term a bare variable? -/
def Term.isVar : Term → Bool
  | .var _ => true
  | .app _ _ => false

/-- Modelled from the spec (section 3): a rule is an LHS term together
with an ordered sequence of RHS clauses (the Rule type of the
repository is not among the provided sources). -/
structure Rule where
  lhs : Term
  rhs : List Term
deriving DecidableEq

/-- Modelled from the spec (section 3): well-formedness of a rule; the
LHS is never a bare variable, the RHS is non-empty, and every variable
of an RHS clause occurs in the LHS.  Rule::new builds a rule exactly
when these hold, so rules produced by the public API satisfy them. -/
def Rule.wfb (r : Rule) : Bool :=
  !r.lhs.isVar && !r.rhs.isEmpty &&
    r.rhs.all fun c => c.varIds.all fun v => v ∈ r.lhs.varIds

/-- Propositional form of rule well-formedness. -/
def Rule.wf (r : Rule) : Prop := r.wfb = true

/-- Number of RHS clauses (spec section 4.4, Rule::len). -/
def Rule.len (r : Rule) : Nat := r.rhs.length

/-- A rule with all clauses discarded is empty (spec section 3). -/
def Rule.is_empty (r : Rule) : Bool := r.rhs.isEmpty

/-- Modelled from the spec (section 4.4): Rule::rewrite yields the RHS
instantiations under the match of the LHS against the whole term, in
RHS order; an unsuccessful match yields nothing. -/
def Rule.rewrite (r : Rule) (t : Term) : List Term :=
  match Term.pmatch [(r.lhs, t)] with
  | some σ => r.rhs.map fun c => c.substitute σ
  | none => []

/-- Reading of an alpha renaming (left variable index to right variable
index) as a substitution. -/
def renameSub (m : List (Nat × Nat)) : List (Nat × Term) :=
  m.map fun p => (p.1, Term.var ⟨p.2⟩)

/-- Modelled from the spec (section 4.4): Rule::merge, called when the
other LHS is alpha-equivalent to this one, keeps this LHS and appends
the alpha-renamed RHS clauses of the other rule that are not already
present. -/
def Rule.merge (r other : Rule) : Rule :=
  match Term.alpha [(other.lhs, r.lhs)] with
  | some m =>
    ⟨r.lhs, r.rhs ++ ((other.rhs.map fun c => c.substitute (renameSub m)).filter
      fun c => !(r.rhs.contains c))⟩
  | none => r

/-- Alpha-equivalence of two single clauses, sharing one renaming
across the LHS pair and the clause pair (spec section 3: a clause is
the rule with a single RHS). -/
def clauseAlpha (l1 c1 l2 c2 : Term) : Bool :=
  (Term.alpha [(l1, l2), (c1, c2)]).isSome

/-- Modelled from the spec (section 4.4): Rule::discard removes the RHS
clauses that are alpha-equivalent to a clause of the other rule; it
returns the surviving rule together with the discarded rule, or none
when nothing was removed (in which case the rule is unchanged). -/
def Rule.discard (r other : Rule) : Option (Rule × Rule) :=
  let hits := fun c => other.rhs.any fun c2 => clauseAlpha r.lhs c other.lhs c2
  let removed := r.rhs.filter fun c => hits c
  if removed.isEmpty then none
  else some (⟨r.lhs, r.rhs.filter fun c => !(hits c)⟩, ⟨r.lhs, removed⟩)

/-- First-match lookup in the shared canonicalization mapping. -/
def mapLookup : List (Nat × Nat) → Nat → Option Nat
  | [], _ => none
  | (k, n) :: rest, v => if k = v then some n else mapLookup rest v

mutual

/-- Modelled from the spec (section 4.4): the traversal underlying
Rule::canonicalize; variables are renumbered left-to-right into a dense
range through the shared mapping, unseen variables receiving the next
dense index. -/
def canonTerm : List (Nat × Nat) → Term → Term × List (Nat × Nat)
  | m, .var v =>
    (match mapLookup m v.id with
     | some n => (.var ⟨n⟩, m)
     | none => (.var ⟨m.length⟩, m ++ [(v.id, m.length)]))
  | m, .app op args =>
    let r := canonArgs m args
    (.app op r.1, r.2)

/-- Canonicalization threaded through an argument list. -/
def canonArgs : List (Nat × Nat) → List Term → List Term × List (Nat × Nat)
  | m, [] => ([], m)
  | m, t :: ts =>
    let r1 := canonTerm m t
    let r2 := canonArgs r1.2 ts
    (r1.1 :: r2.1, r2.2)

end

/-- Modelled from the spec (section 4.4): Rule::canonicalize renumbers
the variables of the LHS and then of each RHS clause via the shared
mapping. -/
def Rule.canonicalize (r : Rule) (m : List (Nat × Nat)) : Rule × List (Nat × Nat) :=
  let rl := canonTerm m r.lhs
  let rr := canonArgs rl.2 r.rhs
  (⟨rl.1, rr.1⟩, rr.2)

/-- The error type of TRS manipulations (src/types/trs.rs, enum
TRSError). -/
inductive TRSError where
  | notInTRS
  | alreadyInTRS
  | nondeterministicRule
  | invalidIndex (idx len : Nat)
deriving DecidableEq

/-- The rewriting strategies (src/types/trs.rs, enum Strategy). -/
inductive Strategy where
  | normal
  | eager
  | all
  | string
deriving DecidableEq

/-- A term rewriting system (src/types/trs.rs, struct TRS). -/
structure TRS where
  is_deterministic : Bool
  rules : List Rule
deriving DecidableEq

/-- First rule whose LHS is alpha-equivalent to the query, with its
index (src/types/trs.rs, TRS::get). -/
def getGo : List Rule → Nat → Term → Option (Nat × Rule)
  | [], _, _ => none
  | r :: rest, i, lhs =>
    if (Term.alpha [(lhs, r.lhs)]).isSome then some (i, r) else getGo rest (i + 1) lhs

/-- Query a TRS for a rule by its LHS, up to alpha-equivalence
(src/types/trs.rs, TRS::get). -/
def TRS.get (trs : TRS) (lhs : Term) : Option (Nat × Rule) :=
  getGo trs.rules 0 lhs

/-- Insertion into a list at an index known to be at most the length. -/
def insertAt (l : List Rule) (idx : Nat) (r : Rule) : List Rule :=
  l.take idx ++ r :: l.drop idx

/-- Insert a rule at an index (src/types/trs.rs, TRS::insert_idx); the
checks happen in source order: determinism, then bounds, then the
alpha-equivalent-LHS check. -/
def TRS.insert_idx (trs : TRS) (idx : Nat) (rule : Rule) : TRS × Option TRSError :=
  if trs.is_deterministic ∧ rule.len > 1 then (trs, some .nondeterministicRule)
  else if idx > trs.rules.length then (trs, some (.invalidIndex idx trs.rules.length))
  else if (trs.get rule.lhs).isSome then (trs, some .alreadyInTRS)
  else (⟨trs.is_deterministic, insertAt trs.rules idx rule⟩, none)

/-- Merge a rule into the existing rule with alpha-equivalent LHS
(src/types/trs.rs, TRS::insert_clauses); rejected outright in
deterministic mode. -/
def TRS.insert_clauses (trs : TRS) (rule : Rule) : TRS × Option TRSError :=
  if trs.is_deterministic then (trs, some .nondeterministicRule)
  else
    match trs.get rule.lhs with
    | some (idx, r) => (⟨trs.is_deterministic, trs.rules.set idx (r.merge rule)⟩, none)
    | none => (trs, some .notInTRS)

/-- Merge if possible, otherwise insert at the index (src/types/trs.rs,
TRS::insert). -/
def TRS.insert (trs : TRS) (idx : Nat) (rule : Rule) : TRS × Option TRSError :=
  match trs.insert_clauses rule with
  | (t1, none) => (t1, none)
  | (_, some _) => trs.insert_idx idx rule

/-- Remove the rule at an index and return it (src/types/trs.rs,
TRS::remove_idx). -/
def TRS.remove_idx (trs : TRS) (idx : Nat) : TRS × Except TRSError Rule :=
  match trs.rules[idx]? with
  | some r => (⟨trs.is_deterministic, trs.rules.eraseIdx idx⟩, .ok r)
  | none => (trs, .error (.invalidIndex idx trs.rules.length))

/-- Remove the rule with alpha-equivalent LHS and return it
(src/types/trs.rs, TRS::remove). -/
def TRS.remove (trs : TRS) (lhs : Term) : TRS × Except TRSError Rule :=
  match trs.get lhs with
  | some (idx, r) => (⟨trs.is_deterministic, trs.rules.eraseIdx idx⟩, .ok r)
  | none => (trs, .error .notInTRS)

/-- Apply Rule::discard along the rule list until the first success,
as the lazily evaluated iterator chain of the source does; rules before
the first success are unchanged because a failing discard does not
mutate. -/
def discardFirst (other : Rule) : List Rule → Option (List Rule × Rule)
  | [] => none
  | r :: rest =>
    (match r.discard other with
     | some (r2, d) => some (r2 :: rest, d)
     | none =>
       match discardFirst other rest with
       | some (rest2, d) => some (r :: rest2, d)
       | none => none)

/-- Remove clauses from the first rule that can discard them, then drop
rules that became empty (src/types/trs.rs, TRS::remove_clauses); on
failure nothing is retained-filtered because the error short-circuits. -/
def TRS.remove_clauses (trs : TRS) (rule : Rule) : TRS × Except TRSError Rule :=
  match discardFirst rule trs.rules with
  | some (rules2, d) => (⟨trs.is_deterministic, rules2.filter fun r => !r.is_empty⟩, .ok d)
  | none => (trs, .error .notInTRS)

/-- Move a rule between indices (src/types/trs.rs, TRS::move_rule);
equal indices short-circuit to success, otherwise the rule is removed
and re-inserted, without restoration if the insertion fails. -/
def TRS.move_rule (trs : TRS) (i j : Nat) : TRS × Option TRSError :=
  if i ≠ j then
    match trs.remove_idx i with
    | (t1, .ok rule) => t1.insert j rule
    | (t1, .error e) => (t1, some e)
  else (trs, none)

/-- Insert a rule and move it to the front (src/types/trs.rs,
TRS::push). -/
def TRS.push (trs : TRS) (rule : Rule) : TRS × Option TRSError :=
  let lhs := rule.lhs
  match trs.insert 0 rule with
  | (t1, some e) => (t1, some e)
  | (t1, none) =>
    match t1.get lhs with
    | some (idx, _) => t1.move_rule idx 0
    | none => (t1, some .notInTRS)

/-- Push each rule in reverse order, stopping at the first error while
keeping earlier effects (src/types/trs.rs, TRS::pushes). -/
def pushesGo : TRS → List Rule → TRS × Option TRSError
  | trs, [] => (trs, none)
  | trs, r :: rest =>
    match trs.push r with
    | (t1, none) => pushesGo t1 rest
    | (t1, some e) => (t1, some e)

/-- Push a list of rules (src/types/trs.rs, TRS::pushes). -/
def TRS.pushes (trs : TRS) (rules : List Rule) : TRS × Option TRSError :=
  pushesGo trs rules.reverse

/-- Insert each rule at the index in reverse order, stopping at the
first error while keeping earlier effects (src/types/trs.rs,
TRS::inserts_idx). -/
def insertsIdxGo : TRS → Nat → List Rule → TRS × Option TRSError
  | trs, _, [] => (trs, none)
  | trs, idx, r :: rest =>
    match trs.insert_idx idx r with
    | (t1, none) => insertsIdxGo t1 idx rest
    | (t1, some e) => (t1, some e)

/-- Insert a list of rules at an index (src/types/trs.rs,
TRS::inserts_idx). -/
def TRS.inserts_idx (trs : TRS) (idx : Nat) (rules : List Rule) : TRS × Option TRSError :=
  insertsIdxGo trs idx rules.reverse

/-- Remove clauses of one rule and insert another (src/types/trs.rs,
TRS::replace). -/
def TRS.replace (trs : TRS) (idx : Nat) (rule1 : Rule) (rule2 : Rule) : TRS × Option TRSError :=
  match trs.remove_clauses rule1 with
  | (t1, .ok _) => t1.insert idx rule2
  | (t1, .error e) => (t1, some e)

/-- Truncate every RHS to its first clause and set the determinism flag
(src/types/trs.rs, TRS::make_deterministic); returns whether the TRS
changed. -/
def TRS.make_deterministic (trs : TRS) : TRS × Bool :=
  if !trs.is_deterministic then
    (⟨true, trs.rules.map fun r => ⟨r.lhs, r.rhs.take 1⟩⟩, true)
  else (trs, false)

/-- Clear the determinism flag (src/types/trs.rs,
TRS::make_nondeterministic). -/
def TRS.make_nondeterministic (trs : TRS) : TRS × Bool :=
  (⟨false, trs.rules⟩, trs.is_deterministic)

/-- Construct a TRS by pushing the rules (src/types/trs.rs, TRS::new);
an error of the underlying pushes is discarded. -/
def TRS.new (rules : List Rule) : TRS :=
  (TRS.pushes ⟨false, []⟩ rules).1

/-- Canonicalize every rule in order, sharing the variable map
(src/types/trs.rs, TRS::canonicalize, delegating to the spec-modelled
Rule::canonicalize). -/
def canonRules : List (Nat × Nat) → List Rule → List Rule × List (Nat × Nat)
  | m, [] => ([], m)
  | m, r :: rest =>
    let r1 := r.canonicalize m
    let r2 := canonRules r1.2 rest
    (r1.1 :: r2.1, r2.2)

/-- Canonicalize a TRS with a shared variable map (src/types/trs.rs,
TRS::canonicalize). -/
def TRS.canonicalize (trs : TRS) (m : List (Nat × Nat)) : TRS × List (Nat × Nat) :=
  let r := canonRules m trs.rules
  (⟨trs.is_deterministic, r.1⟩, r.2)

/-- Inner loop of TRS::rewrite_head (src/types/trs.rs): the RHS
instantiations of the first rule whose LHS matches the whole term with
a nonempty result. -/
def headGo : List Rule → Term → Option (List Term)
  | [], _ => none
  | r :: rest, t =>
    let items := r.rewrite t
    if items.isEmpty then headGo rest t else some items

/-- Rewrites modifying the entire term (src/types/trs.rs,
TRS::rewrite_head). -/
def TRS.rewrite_head (trs : TRS) (t : Term) : Option (List Term) :=
  headGo trs.rules t

mutual

/-- One step of the eager strategy (src/types/trs.rs, TRSRewrites::new
for Strategy::Eager): rewrite_args, falling back to rewrite_head,
falling back to the empty sequence. -/
def TRS.eagerRewrites (trs : TRS) (sig : Signature) : Term → List Term
  | .var v => (trs.rewrite_head (.var v)).getD []
  | .app op args =>
    match eagerArgsGo trs sig op [] args with
    | some l => l
    | none => (trs.rewrite_head (.app op args)).getD []
termination_by t => 2 * t.size
decreasing_by
  simp only [Term.size]; omega

/-- Scan for the first argument with a nonempty eager rewrite; each of
its rewrites replaces that argument (src/types/trs.rs,
TRS::rewrite_args). -/
def eagerArgsGo (trs : TRS) (sig : Signature) (op : Operator) (before : List Term) :
    List Term → Option (List Term)
  | [] => none
  | a :: rest =>
    let rws := trs.eagerRewrites sig a
    if rws.isEmpty then eagerArgsGo trs sig op (before ++ [a]) rest
    else some (rws.map fun x => .app op (before ++ x :: rest))
termination_by l => 2 * Term.sizeArgs l + 1
decreasing_by
  · simp only [Term.sizeArgs]; omega
  · have := Term.size_pos a
    simp only [Term.sizeArgs]
    omega

end

mutual

/-- All possible rewrites (src/types/trs.rs, TRS::rewrite_all): the
head rewrites followed by, for each argument in order, the whole term
with that argument replaced by each of its own rewrites. -/
def TRS.rewrite_all (trs : TRS) : Term → Option (List Term)
  | .var _ => none
  | .app op args =>
    some (((trs.rewrite_head (.app op args)).getD []) ++
      allArgsGo trs (.app op args) 0 args)
termination_by t => 2 * t.size
decreasing_by
  simp only [Term.size]; omega

/-- Subterm part of TRS::rewrite_all; the source unwraps the always
in-bounds Term::replace, we default to a junk variable in the
unreachable failure case. -/
def allArgsGo (trs : TRS) (t0 : Term) : Nat → List Term → List Term
  | _, [] => []
  | i, a :: rest =>
    (((trs.rewrite_all a).getD []).map fun rw => (t0.replace [i] rw).getD (.var ⟨0⟩)) ++
      allArgsGo trs t0 (i + 1) rest
termination_by i l => 2 * Term.sizeArgs l + 1
decreasing_by
  · simp only [Term.sizeArgs]; omega
  · have := Term.size_pos a
    simp only [Term.sizeArgs]
    omega

end

/-- A search frame of the Normal-strategy iterator (src/types/trs.rs,
Normal::new): operator, current argument index and argument slice. -/
abbrev Frame := Operator × Nat × List Term

/-- Remaining work of a frame: total size of the arguments from the
current index on. -/
def frameMeasure (f : Frame) : Nat := Term.sizeArgs (f.2.2.drop f.2.1)

/-- Termination measure of the Normal-strategy search stack. -/
def stackMeasure (st : List Frame) : Nat := (st.map frameMeasure).sum

theorem stackMeasure_cons (f : Frame) (st : List Frame) :
    stackMeasure (f :: st) = frameMeasure f + stackMeasure st := by
  simp [stackMeasure]

theorem stackMeasure_append (st1 st2 : List Frame) :
    stackMeasure (st1 ++ st2) = stackMeasure st1 + stackMeasure st2 := by
  simp [stackMeasure]

/-- Outcome of the Normal-strategy subterm search: an out-of-bounds
argument access (a panic in the source), exhaustion without a redex, or
a redex with the rebuild stack. -/
inductive NormalRes where
  | panic
  | nomatch
  | found (frames : List Frame) (rws : List Term)

theorem sizeArgs_drop_of_getElem {args : List Term} {i : Nat} {a : Term}
    (h : args[i]? = some a) :
    Term.sizeArgs (args.drop i) = a.size + Term.sizeArgs (args.drop (i + 1)) := by
  have hlt : i < args.length := by
    by_contra hge
    rw [List.getElem?_eq_none (Nat.le_of_not_lt hge)] at h
    exact Option.noConfusion h
  have hdrop : args.drop i = args[i] :: args.drop (i + 1) :=
    List.drop_eq_getElem_cons hlt
  have ha : args[i] = a := by
    have := List.getElem?_eq_getElem hlt
    rw [this] at h
    exact Option.some.inj h
  rw [hdrop, ha, Term.sizeArgs]

/-- The subterm-search loop of the Normal strategy (src/types/trs.rs,
Normal::new): the top frame's current argument is examined; a variable
abandons the whole frame, an application is tried against every rule
and, failing that, its right sibling (when it exists) and its own
arguments (when nonempty) are pushed.  The source indexes the argument
slice directly, which panics when the initial frame has no arguments. -/
def normalLoop (trs : TRS) : List Frame → NormalRes
  | [] => .nomatch
  | (op, arg, args) :: stack =>
    match h : args[arg]? with
    | none => .panic
    | some (Term.var _) => normalLoop trs stack
    | some (Term.app newOp newArgs) =>
      match trs.rewrite_head (Term.app newOp newArgs) with
      | some rws => .found ((op, arg, args) :: stack) rws
      | none =>
        normalLoop trs
          ((if newArgs.isEmpty then [] else [(newOp, 0, newArgs)]) ++
            (if arg + 1 < args.length then [(op, arg + 1, args)] else []) ++ stack)
termination_by st => stackMeasure st
decreasing_by
  · have hsz := sizeArgs_drop_of_getElem h
    simp only [stackMeasure_cons, frameMeasure, Term.size] at *
    omega
  · have hsz := sizeArgs_drop_of_getElem h
    have hchild : stackMeasure (if newArgs.isEmpty then [] else [(newOp, 0, newArgs)]) =
        Term.sizeArgs newArgs := by
      by_cases hemp : newArgs.isEmpty
      · rw [if_pos hemp, List.isEmpty_iff.mp hemp]
        rfl
      · rw [if_neg hemp]
        simp [stackMeasure, frameMeasure]
    have hsib : stackMeasure (if arg + 1 < args.length then [(op, arg + 1, args)] else []) =
        Term.sizeArgs (args.drop (arg + 1)) := by
      by_cases hs : arg + 1 < args.length
      · rw [if_pos hs]
        simp [stackMeasure, frameMeasure]
      · rw [if_neg hs, List.drop_eq_nil_of_le (Nat.le_of_not_lt hs)]
        rfl
    simp only [dite_eq_ite, stackMeasure_append, stackMeasure_cons, frameMeasure,
      Term.size] at *
    omega

/-- Rebuild one context frame around a rewritten subterm
(src/types/trs.rs, the fold in the Iterator implementation for
Normal). -/
def rebuildFrame (acc : Term) (f : Frame) : Term :=
  .app f.1 (f.2.2.take f.2.1 ++ acc :: f.2.2.drop (f.2.1 + 1))

/-- The Normal strategy (src/types/trs.rs, Normal::new and its Iterator
implementation), as the full list of yielded terms; none models the
panic of the argument indexing. -/
def TRS.normalRewrites (trs : TRS) (t : Term) : Option (List Term) :=
  match t with
  | .var _ => some []
  | .app op args =>
    match trs.rewrite_head (.app op args) with
    | some rws => some rws
    | none =>
      match normalLoop trs [(op, 0, args)] with
      | .panic => none
      | .nomatch => some []
      | .found frames rws => some (rws.map fun sub => frames.foldl rebuildFrame sub)

mutual

/-- Flatten a term to its atom string (src/types/trs.rs,
TRS::convert_term_to_string): variables and nullary applications are
single atoms, binary applications of an operator named dot concatenate
their argument strings, everything else fails. -/
def TRS.convert_term_to_string (t : Term) (sig : Signature) : Option (List Atom) :=
  match t with
  | .var v => some [Atom.var v]
  | .app op args =>
    match op.name sig, op.arity sig with
    | _, 0 => some [Atom.op op]
    | some s, 2 =>
      if s = "." then convertArgsToString args sig else none
    | _, _ => none
termination_by 2 * t.size
decreasing_by
  simp only [Term.size]; omega

/-- Concatenated flattening of an argument list, failing if any
argument fails. -/
def convertArgsToString : List Term → Signature → Option (List Atom)
  | [], _ => some []
  | a :: as, sig => do
    let s1 ← TRS.convert_term_to_string a sig
    let s2 ← convertArgsToString as sig
    some (s1 ++ s2)
termination_by l sig => 2 * Term.sizeArgs l + 1
decreasing_by
  · simp only [Term.sizeArgs]; omega
  · have := Term.size_pos a
    simp only [Term.sizeArgs]
    omega

end

/-- Flatten a rule to its LHS string and RHS strings (src/types/trs.rs,
TRS::convert_rule_to_strings). -/
def TRS.convert_rule_to_strings (r : Rule) (sig : Signature) :
    Option (List Atom × List (List Atom)) := do
  let lhs ← TRS.convert_term_to_string r.lhs sig
  let rhs ← r.rhs.mapM fun c => TRS.convert_term_to_string c sig
  some (lhs, rhs)

/-- Reject splits where an operator position does not have length
exactly one (src/types/trs.rs, TRS::valid_option). -/
def TRS.valid_option (pattern : List Atom) (breaks : List Nat) : Bool :=
  (List.range pattern.length).all fun i =>
    match pattern.getD i (Atom.var ⟨0⟩) with
    | Atom.op _ => breaks.getD (i + 1) 0 - breaks.getD i 0 == 1
    | Atom.var _ => true

/-- Generate every way to split a string of length n into segments, one
per pattern atom (src/types/trs.rs, TRS::gen_breaks); the source draws
the interior break points as combinations of 0..=n, modelled here with
sublistsLen (the enumeration order differs but the collection of breaks
coincides; the single claim evaluating this does so on a concrete input
with one surviving break list). -/
def TRS.gen_breaks (pattern : List Atom) (n : Nat) : Option (List (List Nat)) :=
  some (((((List.range (n + 1)).sublistsLen (pattern.length - 1)).map
    fun x => 0 :: (x ++ [n]))).filter fun x => TRS.valid_option pattern x)

/-- First-match lookup in the segment bindings of a string match. -/
def atomsLookup : List (Nat × List Atom) → Nat → Option (List Atom)
  | [], _ => none
  | (k, s) :: rest, v => if k = v then some s else atomsLookup rest v

/-- Walk the pattern against the segment decomposition, binding each
variable on first occurrence and checking consistency afterwards
(src/types/trs.rs, TRS::match_pattern). -/
def matchPatternGo (breaks : List Nat) (string : List Atom) :
    Nat → List Atom → List (Nat × List Atom) → Option (List (Nat × List Atom))
  | _, [], ms => some ms
  | i, atom :: rest, ms =>
    let seg := (string.drop (breaks.getD i 0)).take (breaks.getD (i + 1) 0 - breaks.getD i 0)
    match atom with
    | Atom.var v =>
      (match atomsLookup ms v.id with
       | some prev =>
         if prev = seg then matchPatternGo breaks string (i + 1) rest ms else none
       | none => matchPatternGo breaks string (i + 1) rest (ms ++ [(v.id, seg)]))
    | Atom.op _ =>
      if seg = [atom] then matchPatternGo breaks string (i + 1) rest ms else none

/-- Match a pattern against a string under a break list
(src/types/trs.rs, TRS::match_pattern). -/
def TRS.match_pattern (pattern : List Atom) (breaks : List Nat) (string : List Atom) :
    Option (List (Nat × List Atom)) :=
  matchPatternGo breaks string 0 pattern []

/-- Instantiate an RHS pattern with the matched segments
(src/types/trs.rs, TRS::substitute_pattern); an unbound variable
fails. -/
def TRS.substitute_pattern (pattern : List Atom) (ms : List (Nat × List Atom)) :
    Option (List Atom) :=
  match pattern with
  | [] => some []
  | atom :: rest => do
    let tail ← TRS.substitute_pattern rest ms
    match atom with
    | Atom.var v =>
      match atomsLookup ms v.id with
      | some seg => some (seg ++ tail)
      | none => none
    | Atom.op _ => some (atom :: tail)

/-- The first operator of the signature with arity two and name dot
(src/types/trs.rs, the lookup inside TRS::convert_to_term). -/
def findDot (sig : Signature) : Option Operator :=
  ((List.range sig.operators.length).map fun i => Operator.mk i).find?
    fun o => o.arity sig == 2 && o.name sig == some "."

/-- A single atom as a term: a variable leaf or an argument-less
application (the leaves built inside TRS::convert_to_term,
src/types/trs.rs). -/
def atomToLeaf : Atom → Term
  | .var v => .var v
  | .op op => .app op []

/-- Build the left-associative binary tree of a string under the dot
operator (src/types/trs.rs, TRS::convert_to_term); fails on the empty
string or when no dot operator exists. -/
def TRS.convert_to_term (string : List Atom) (sig : Signature) : Option Term :=
  match string with
  | [] => none
  | a0 :: rest =>
    match findDot sig with
    | some binOp =>
      some (rest.foldl (fun acc c => Term.app binOp [acc, atomToLeaf c]) (atomToLeaf a0))
    | none => none

/-- Instantiation and conversion of every RHS of a matched rule; the
failure of any step aborts the whole string rewrite as the question
marks of the source do. -/
def rhssLoop (sig : Signature) (ms : List (Nat × List Atom)) :
    List (List Atom) → Option (List Term)
  | [] => some []
  | rhs :: rest => do
    let ns ← TRS.substitute_pattern rhs ms
    let t ← TRS.convert_to_term ns sig
    let more ← rhssLoop sig ms rest
    some (t :: more)

/-- Iteration over the generated break lists of one rule
(src/types/trs.rs, the inner loop of TRS::rewrite_as_string). -/
def breaksLoop (sig : Signature) (pat : List Atom × List (List Atom)) (string : List Atom) :
    List (List Nat) → Option (List Term)
  | [] => some []
  | breaks :: rest =>
    match TRS.match_pattern pat.1 breaks string with
    | some ms => do
      let ts ← rhssLoop sig ms pat.2
      let more ← breaksLoop sig pat string rest
      some (ts ++ more)
    | none => breaksLoop sig pat string rest

/-- Iteration over the rules of the TRS (src/types/trs.rs, the outer
loop of TRS::rewrite_as_string). -/
def rulesLoop (sig : Signature) (string : List Atom) : List Rule → Option (List Term)
  | [] => some []
  | r :: rest => do
    let pat ← TRS.convert_rule_to_strings r sig
    let bs ← TRS.gen_breaks pat.1 string.length
    let ts ← breaksLoop sig pat string bs
    let more ← rulesLoop sig string rest
    some (ts ++ more)

/-- All string rewrites of a term (src/types/trs.rs,
TRS::rewrite_as_string). -/
def TRS.rewrite_as_string (trs : TRS) (t : Term) (sig : Signature) : Option (List Term) := do
  let string ← TRS.convert_term_to_string t sig
  rulesLoop sig string trs.rules

/-- One rewrite step under a strategy (src/types/trs.rs, TRS::rewrite
and TRSRewrites::new), as the full list of yielded terms; none models a
panic, which only the Normal strategy can reach. -/
def TRS.rewrite (trs : TRS) (t : Term) (strategy : Strategy) (sig : Signature) :
    Option (List Term) :=
  match strategy with
  | .normal => trs.normalRewrites t
  | .eager => some (trs.eagerRewrites sig t)
  | .all => some ((trs.rewrite_all t).getD [])
  | .string => some ((trs.rewrite_as_string t sig).getD [])

/-- The distribution over incorrect substitutions (src/types/trs.rs,
enum PStringIncorrect), with rationals in place of f64. -/
inductive PStringIncorrect where
  | constant (p : ℚ)
  | bounded (low high : Nat) (weight : ℚ)
deriving DecidableEq

/-- The edit-distance configuration (src/types/trs.rs, struct
PStringDist), with rationals in place of f64. -/
structure PStringDist where
  beta : ℚ
  p_insertion : ℚ
  p_deletion : ℚ
  p_correct_sub : ℚ
  p_incorrect_sub : PStringIncorrect
deriving DecidableEq

/-- Substitution probability (src/types/trs.rs, PString::p_sub); the
bounded branch parses the displayed atoms as numbers, String.toNat?
standing for the Rust usize parse (they agree on plain digit strings,
which are the only ones the claims evaluate). -/
def PString.p_sub (dist : PStringDist) (sig : Signature) (x y : Atom) : ℚ :=
  if x = y then dist.p_correct_sub
  else
    match dist.p_incorrect_sub with
    | .constant p => p
    | .bounded low high weight =>
      match (x.display sig).toNat?, (y.display sig).toNat? with
      | some nx, some ny =>
        let range := high + 1 - low
        let dxy := if nx > ny then nx - ny else ny - nx
        let peak := if nx = low ∨ nx = high then range else max (high + 1 - nx) (nx + 1 - low)
        let massY := peak - dxy
        let z := (List.range' 1 (peak - 1)).sum +
          ((List.range' 1 (peak - 1)).reverse.take (high - nx)).sum
        weight * (massY : ℚ) / (z : ℚ)
      | _, _ => 0

/-- The three-counter recurrence (src/types/trs.rs, PString::query);
the memo cache of the source does not change the computed value, so it
is dropped here.  The source indexes the strings directly at positions
that are in bounds for every key reachable from compute; the defaulted
lookup stands for that indexing. -/
def PString.query (dist : PStringDist) (sig : Signature) (x y : List Atom) :
    Nat → Nat → Nat → ℚ
  | 0, 0, 0 => 1
  | t+1, 0, 0 => PString.query dist sig x y t 0 0 * dist.p_insertion
  | 0, d+1, 0 => PString.query dist sig x y 0 d 0 * dist.p_deletion
  | 0, 0, s+1 =>
    PString.query dist sig x y 0 0 s *
      PString.p_sub dist sig (x.getD s (.op ⟨0⟩)) (y.getD s (.op ⟨0⟩))
  | t+1, d+1, 0 =>
    PString.query dist sig x y t (d+1) 0 * dist.p_insertion +
      PString.query dist sig x y (t+1) d 0 * dist.p_deletion
  | t+1, 0, s+1 =>
    PString.query dist sig x y t 0 (s+1) * dist.p_insertion +
      PString.query dist sig x y (t+1) 0 s *
        PString.p_sub dist sig (x.getD s (.op ⟨0⟩)) (y.getD (s + t + 1) (.op ⟨0⟩))
  | 0, d+1, s+1 =>
    PString.query dist sig x y 0 d (s+1) * dist.p_deletion +
      PString.query dist sig x y 0 (d+1) s *
        PString.p_sub dist sig (x.getD (s + d + 1) (.op ⟨0⟩)) (y.getD s (.op ⟨0⟩))
  | t+1, d+1, s+1 =>
    PString.query dist sig x y t (d+1) (s+1) * dist.p_insertion +
      PString.query dist sig x y (t+1) d (s+1) * dist.p_deletion +
      PString.query dist sig x y (t+1) (d+1) s *
        PString.p_sub dist sig (x.getD (s + d + 1) (.op ⟨0⟩)) (y.getD (s + t + 1) (.op ⟨0⟩))
termination_by t d s => t + d + s

/-- The probability of t insertions (src/types/trs.rs,
PString::rho_t). -/
def PString.rho_t (dist : PStringDist) (t : Nat) : ℚ :=
  (1 - dist.beta) * dist.beta ^ t

/-- The factorial normalizer computed without full factorials
(src/types/trs.rs, PString::normalizer). -/
def PString.normalizer (m t : Nat) : ℚ :=
  if m = 0 ∧ t = 0 then 1
  else (((List.range' 1 (min t m)).prod : Nat) : ℚ) /
    (((List.range' (max t m + 1) (m + t - max t m)).prod : Nat) : ℚ)

/-- The outer sum over feasible insertion counts (src/types/trs.rs,
PString::compute). -/
def PString.compute (x y : List Atom) (dist : PStringDist) (sig : Signature)
    (t_max d_max : Nat) : ℚ :=
  let m := x.length
  let n := y.length
  let t_start := n - m
  let t_end := min t_max (d_max + n - m)
  ((List.range' t_start (t_end + 1 - t_start)).filterMap fun t =>
    if t > n ∨ n > m + t then none
    else some (PString.rho_t dist t * PString.query dist sig x y t (m + t - n) (n - t) *
      PString.normalizer m t)).sum

/-- The probability computed by TRS::p_string (src/types/trs.rs)
before the final logarithm: the source returns Some of the natural log
of this value, and the log of one is zero. -/
def TRS.p_string_prob (x y : Term) (dist : PStringDist) (t_max d_max : Nat)
    (sig : Signature) : Option ℚ := do
  let xs ← TRS.convert_term_to_string x sig
  let ys ← TRS.convert_term_to_string y sig
  some (PString.compute xs ys dist sig t_max d_max)

/-- Register a fresh operator record (the Signature type of the
repository is not among the provided sources; spec section 4.1,
new_op appends a record and returns the handle). -/
def Signature.new_op (sig : Signature) (arity : Nat) (name : Option String) :
    Operator × Signature :=
  (⟨sig.operators.length⟩, ⟨sig.operators ++ [(arity, name)], sig.vars⟩)

/-- Decode a single decimal digit operator (src/types/trs.rs,
TRS::digit_to_usize). -/
def TRS.digit_to_usize (t : Term) (sig : Signature) : Option Nat :=
  match t.as_application with
  | none => none
  | some (op, _) =>
    match op.name sig, op.arity sig with
    | some s, 0 =>
      if s = "0" then some 0
      else if s = "1" then some 1
      else if s = "2" then some 2
      else if s = "3" then some 3
      else if s = "4" then some 4
      else if s = "5" then some 5
      else if s = "6" then some 6
      else if s = "7" then some 7
      else if s = "8" then some 8
      else if s = "9" then some 9
      else none
    | _, _ => none

theorem as_guarded_eq {t : Term} {sig : Signature} {n : String} {a : Nat}
    {op : Operator} {args : List Term}
    (h : t.as_guarded_application sig n a = some (op, args)) : t = .app op args := by
  cases t with
  | var v => simp [Term.as_guarded_application] at h
  | app op2 args2 =>
    simp only [Term.as_guarded_application] at h
    by_cases hc : op2.name sig = some n ∧ op2.arity sig = a
    · rw [if_pos hc] at h
      injection h with h2
      cases h2
      rfl
    · rw [if_neg hc] at h
      exact Option.noConfusion h

/-- Decode a DIGIT or DECC numeral (src/types/trs.rs,
TRS::num_to_usize); the source indexes the two arguments of each
arity-two application directly, so argument lists of other lengths
(only possible for ill-formed terms) are mapped to none here. -/
def TRS.num_to_usize (t : Term) (sig : Signature) : Option Nat :=
  match h1 : t.as_guarded_application sig "." 2 with
  | none => none
  | some (_, args) =>
    match args with
    | [a0, a1] =>
      if (a0.as_guarded_application sig "DIGIT" 0).isSome then TRS.digit_to_usize a1 sig
      else
        match h3 : a0.as_guarded_application sig "." 2 with
        | none => none
        | some (_, inner) =>
          match inner with
          | [i0, i1] =>
            if (i0.as_guarded_application sig "DECC" 0).isSome then
              match TRS.num_to_usize i1 sig with
              | none => none
              | some sigs =>
                match TRS.digit_to_usize a1 sig with
                | none => none
                | some digit => some (sigs * 10 + digit)
            else none
          | _ => none
    | _ => none
termination_by t.size
decreasing_by
  rw [as_guarded_eq h1, as_guarded_eq h3]
  simp only [Term.size, Term.sizeArgs]
  have := Term.size_pos a1
  omega

/-- First nullary operator of the signature whose name is the decimal
form of the number (src/types/trs.rs, the find inside
TRS::num_to_atom). -/
def findNumOp (sig : Signature) (n : Nat) : Option Operator :=
  ((List.range sig.operators.length).map fun i => Operator.mk i).find?
    fun o => o.name sig == some (Nat.repr n) && o.arity sig == 0

/-- Decode a numeral below one hundred into an atom, creating the
nullary operator when it does not exist (src/types/trs.rs,
TRS::num_to_atom); the possibly extended signature is returned. -/
def TRS.num_to_atom (t : Term) (sig : Signature) : Option (Atom × Signature) :=
  match TRS.num_to_usize t sig with
  | none => none
  | some n =>
    if n < 100 then
      match findNumOp sig n with
      | some op => some (.op op, sig)
      | none =>
        let r := sig.new_op 0 (some (Nat.repr n))
        some (.op r.1, r.2)
    else none

/-- Decode a NIL or dotted CONS list into its atom string
(src/types/trs.rs, TRS::convert_list_to_string), threading the possibly
extended signature. -/
def TRS.convert_list_to_string (t : Term) (sig : Signature) :
    Option (List Atom × Signature) :=
  if (t.as_guarded_application sig "NIL" 0).isSome then some ([], sig)
  else
    match h1 : t.as_guarded_application sig "." 2 with
    | none => none
    | some (_, args) =>
      match args with
      | [a0, a1] =>
        match a0.as_guarded_application sig "." 2 with
        | none => none
        | some (_, inner) =>
          match inner with
          | [i0, i1] =>
            if (i0.as_guarded_application sig "CONS" 0).isSome then
              match TRS.num_to_atom i1 sig with
              | none => none
              | some (atom, sig1) =>
                match TRS.convert_list_to_string a1 sig1 with
                | none => none
                | some (rest, sig2) => some (atom :: rest, sig2)
            else none
          | _ => none
      | _ => none
termination_by t.size
decreasing_by
  rw [as_guarded_eq h1]
  simp only [Term.size, Term.sizeArgs]
  have := Term.size_pos a0
  omega

/-- The probability computed by TRS::p_list (src/types/trs.rs) before
the final logarithm; the source returns the natural log of this value
when both conversions succeed and negative infinity otherwise, and the
f64 log of zero is itself negative infinity.  The source also runs the
second conversion when the first fails and discards its result; the
discarded run cannot change the observable outcome because signature
extension never alters the lookups of existing handles. -/
def TRS.p_list_prob (x y : Term) (dist : PStringDist) (t_max d_max : Nat)
    (sig : Signature) : Option ℚ :=
  match TRS.convert_list_to_string x sig with
  | none => none
  | some (xs, sig1) =>
    match TRS.convert_list_to_string y sig1 with
    | none => none
    | some (ys, sig2) => some (PString.compute xs ys dist sig2 t_max d_max)

/-!
Concrete objects used by the claim theorems, their witnesses and their
counterexamples.
-/

namespace Ex

/-- Signature of the rewriting examples: the nullary operators A to E
and G, the unary F, the binary J and K, one variable. -/
def sigR : Signature :=
  ⟨[(0, some "A"), (0, some "B"), (0, some "C"), (0, some "D"), (0, some "E"),
    (1, some "F"), (0, some "G"), (2, some "J"), (2, some "K")], [some "x"]⟩

/-- The constant A. -/
def cA : Term := .app ⟨0⟩ []

/-- The constant B. -/
def cB : Term := .app ⟨1⟩ []

/-- The constant C. -/
def cC : Term := .app ⟨2⟩ []

/-- The constant D. -/
def cD : Term := .app ⟨3⟩ []

/-- The constant E. -/
def cE : Term := .app ⟨4⟩ []

/-- The variable x. -/
def vx : Term := .var ⟨0⟩

/-- The rule F(x) to A. -/
def ruleC1a : Rule := ⟨.app ⟨5⟩ [vx], [cA]⟩

/-- The rule F(B) to C; its LHS also matches F(B). -/
def ruleC1b : Rule := ⟨.app ⟨5⟩ [cB], [cC]⟩

/-- A TRS in which two rules match the same head. -/
def trsC1 : TRS := TRS.new [ruleC1a, ruleC1b]

/-- The term F(B), matched by both rules of trsC1. -/
def tFB : Term := .app ⟨5⟩ [cB]

/-- A TRS whose single rule rewrites A to A itself. -/
def trsAA : TRS := TRS.new [⟨cA, [cA]⟩]

/-- A TRS whose single rule rewrites B, so that A has no redex. -/
def trsBC : TRS := TRS.new [⟨cB, [cC]⟩]

/-- Signature with a binary dot operator and a nullary A, for the
string-strategy examples. -/
def sigS : Signature := ⟨[(2, some "."), (0, some "A")], [some "x"]⟩

/-- The constant A of sigS. -/
def sA : Term := .app ⟨1⟩ []

/-- The string rule whose LHS flattens to the two-atom string x A; its
variable can match the empty segment. -/
def ruleS : Rule := ⟨.app ⟨0⟩ [.var ⟨0⟩, sA], [sA]⟩

/-- A TRS with the single string rule. -/
def trsS : TRS := TRS.new [ruleS]

/-- Signature with a dot operator and a unary operator G, for the
round-trip counterexample. -/
def sigG : Signature := ⟨[(2, some "."), (1, some "G")], []⟩

/-- Signature with a dot operator and two nullary operators, for the
round-trip witness. -/
def sigAB : Signature := ⟨[(2, some "."), (0, some "A"), (0, some "B")], []⟩

/-- Signature with a dot operator and three nullary operators, for the
edit-distance witness. -/
def sigDot : Signature :=
  ⟨[(2, some "."), (0, some "A"), (0, some "B"), (0, some "C")], []⟩

/-- The term dot(dot(A B) C), flattening to the string A B C. -/
def xDot : Term := .app ⟨0⟩ [.app ⟨0⟩ [.app ⟨1⟩ [], .app ⟨2⟩ []], .app ⟨3⟩ []]

/-- Signature with the list encoding operators and the numeral one. -/
def sigL : Signature :=
  ⟨[(0, some "NIL"), (2, some "."), (0, some "CONS"), (0, some "DIGIT"), (0, some "1")], []⟩

/-- The empty list NIL. -/
def nilT : Term := .app ⟨0⟩ []

/-- The list holding the single numeral one, in the cons encoding. -/
def yList : Term :=
  .app ⟨1⟩ [.app ⟨1⟩ [.app ⟨2⟩ [], .app ⟨1⟩ [.app ⟨3⟩ [], .app ⟨4⟩ []]], nilT]

/-- An edit-distance configuration with every probability zero. -/
def distZero : PStringDist := ⟨0, 0, 0, 0, .constant 0⟩

/-- The rule A to B. -/
def ruleAB : Rule := ⟨cA, [cB]⟩

/-- The two-clause rule A to B or C. -/
def ruleAB2 : Rule := ⟨cA, [cB, cC]⟩

/-- The rule D to E. -/
def ruleDE : Rule := ⟨cD, [cE]⟩

/-- A one-rule TRS used by the mutate-then-fail examples. -/
def trsOne : TRS := ⟨false, [ruleAB]⟩

/-- The empty deterministic TRS. -/
def trsDet : TRS := ⟨true, []⟩

/-- The binary application J(x x) with a repeated variable. -/
def tJ00 : Term := .app ⟨7⟩ [.var ⟨0⟩, .var ⟨0⟩]

/-- The binary application J(x y) with distinct variables. -/
def tJ01 : Term := .app ⟨7⟩ [.var ⟨0⟩, .var ⟨1⟩]

/-- The rule J(x x) to A. -/
def rJ00 : Rule := ⟨tJ00, [cA]⟩

/-- The rule J(x y) to A. -/
def rJ01 : Rule := ⟨tJ01, [cA]⟩

end Ex

/-- Renaming of a variable index through a canonicalization mapping;
indices without an entry are left unchanged. -/
def renameVar (M : List (Nat × Nat)) (k : Nat) : Nat := (mapLookup M k).getD k

mutual

/-- Renaming of every variable of a term through a canonicalization
mapping; the canonical form of a term is its renaming under the final
mapping of the canonicalization run. -/
def renameVarsT (M : List (Nat × Nat)) : Term → Term
  | .var v => .var ⟨renameVar M v.id⟩
  | .app op args => .app op (renameVarsArgs M args)

/-- Renaming through an argument list. -/
def renameVarsArgs (M : List (Nat × Nat)) : List Term → List Term
  | [] => []
  | t :: ts => renameVarsT M t :: renameVarsArgs M ts

end

/-- A well-formed canonicalization mapping: pairwise distinct keys,
pairwise distinct values, and every value below the number of entries.
The empty mapping is well formed, and canonicalization preserves well
formedness, so exactly the mappings obtained by canonicalization runs
from the empty mapping are covered. -/
def GoodMap (M : List (Nat × Nat)) : Prop :=
  (M.map Prod.fst).Nodup ∧ (M.map Prod.snd).Nodup ∧ ∀ p ∈ M, p.2 < M.length

/-- The invariants the public TRS operations maintain: every rule has a
non-empty RHS, in deterministic mode every rule has exactly one RHS
clause, and no two rules have alpha-equivalent LHSs. -/
def TRSInv (trs : TRS) : Prop :=
  (∀ r ∈ trs.rules, r.rhs ≠ []) ∧
  (trs.is_deterministic = true → ∀ r ∈ trs.rules, r.rhs.length = 1) ∧
  trs.rules.Pairwise fun r1 r2 => ¬(Term.alpha [(r1.lhs, r2.lhs)]).isSome

/-- The TRSs built by TRS::new from rules satisfying the Rule::new
invariants and modified only through the public TRS operations, with
canonicalize restricted to well-formed mappings (such as the empty
mapping, or any mapping produced by an earlier canonicalization from
it). -/
inductive Reachable : TRS → Prop where
  | new (rules : List Rule) (h : ∀ r ∈ rules, r.wf) : Reachable (TRS.new rules)
  | insert_idx (trs : TRS) (idx : Nat) (rule : Rule) (h : Reachable trs)
      (hr : rule.wf) : Reachable (trs.insert_idx idx rule).1
  | insert_clauses (trs : TRS) (rule : Rule) (h : Reachable trs) (hr : rule.wf) :
      Reachable (trs.insert_clauses rule).1
  | insert (trs : TRS) (idx : Nat) (rule : Rule) (h : Reachable trs) (hr : rule.wf) :
      Reachable (trs.insert idx rule).1
  | remove_idx (trs : TRS) (idx : Nat) (h : Reachable trs) :
      Reachable (trs.remove_idx idx).1
  | remove (trs : TRS) (lhs : Term) (h : Reachable trs) :
      Reachable (trs.remove lhs).1
  | remove_clauses (trs : TRS) (rule : Rule) (h : Reachable trs) :
      Reachable (trs.remove_clauses rule).1
  | move_rule (trs : TRS) (i j : Nat) (h : Reachable trs) :
      Reachable (trs.move_rule i j).1
  | push (trs : TRS) (rule : Rule) (h : Reachable trs) (hr : rule.wf) :
      Reachable (trs.push rule).1
  | pushes (trs : TRS) (rules : List Rule) (h : Reachable trs)
      (hr : ∀ r ∈ rules, r.wf) : Reachable (trs.pushes rules).1
  | inserts_idx (trs : TRS) (idx : Nat) (rules : List Rule) (h : Reachable trs)
      (hr : ∀ r ∈ rules, r.wf) : Reachable (trs.inserts_idx idx rules).1
  | replace (trs : TRS) (idx : Nat) (rule1 rule2 : Rule) (h : Reachable trs)
      (hr : rule2.wf) : Reachable (trs.replace idx rule1 rule2).1
  | make_deterministic (trs : TRS) (h : Reachable trs) :
      Reachable (trs.make_deterministic).1
  | make_nondeterministic (trs : TRS) (h : Reachable trs) :
      Reachable (trs.make_nondeterministic).1
  | canonicalize (trs : TRS) (m : List (Nat × Nat)) (h : Reachable trs)
      (hm : GoodMap m) : Reachable (trs.canonicalize m).1

/-- The subterm relation: a term is a subterm of itself and of any
application one of whose arguments contains it. -/
inductive Subterm : Term → Term → Prop where
  | refl (t : Term) : Subterm t t
  | arg {s a : Term} {op : Operator} {args : List Term} (ha : a ∈ args)
      (h : Subterm s a) : Subterm s (.app op args)

/-- No subterm of the term is matched by the LHS of any rule of the
TRS: the no-redex hypothesis of claim C2. -/
def Unmatched (trs : TRS) (t : Term) : Prop :=
  ∀ s, Subterm s t → ∀ r ∈ trs.rules, Term.pmatch [(r.lhs, s)] = none

/-!
Supporting lemmas and the claim theorems.
-/

theorem digitChar_ne_underscore (m : Nat) : Nat.digitChar m ≠ '_' := by
  rcases Nat.lt_or_ge m 16 with h | h
  · interval_cases m <;> decide
  · have h0 : Nat.digitChar m = '*' := by
      unfold Nat.digitChar
      rw [if_neg (by omega : ¬ m = 0), if_neg (by omega : ¬ m = 1),
        if_neg (by omega : ¬ m = 2), if_neg (by omega : ¬ m = 3),
        if_neg (by omega : ¬ m = 4), if_neg (by omega : ¬ m = 5),
        if_neg (by omega : ¬ m = 6), if_neg (by omega : ¬ m = 7),
        if_neg (by omega : ¬ m = 8), if_neg (by omega : ¬ m = 9),
        if_neg (by omega : ¬ m = 10), if_neg (by omega : ¬ m = 11),
        if_neg (by omega : ¬ m = 12), if_neg (by omega : ¬ m = 13),
        if_neg (by omega : ¬ m = 14), if_neg (by omega : ¬ m = 15)]
    rw [h0]
    decide

theorem toDigitsCore_chars (b : Nat) : ∀ (fuel n : Nat) (acc : List Char) (c : Char),
    c ∈ Nat.toDigitsCore b fuel n acc → c ∈ acc ∨ ∃ m, c = Nat.digitChar m := by
  intro fuel
  induction fuel with
  | zero =>
    intro n acc c hc
    simp only [Nat.toDigitsCore] at hc
    exact Or.inl hc
  | succ f ih =>
    intro n acc c hc
    simp only [Nat.toDigitsCore] at hc
    split at hc
    · rcases List.mem_cons.mp hc with h | h
      · exact Or.inr ⟨n % b, h⟩
      · exact Or.inl h
    · rcases ih (n / b) ((n % b).digitChar :: acc) c hc with h | h
      · rcases List.mem_cons.mp h with h2 | h2
        · exact Or.inr ⟨n % b, h2⟩
        · exact Or.inl h2
      · exact Or.inr h

theorem repr_chars (n : Nat) (c : Char) (hc : c ∈ (Nat.repr n).data) :
    ∃ m, c = Nat.digitChar m := by
  have hd : (Nat.repr n).data = Nat.toDigitsCore 10 (n + 1) n [] := rfl
  rw [hd] at hc
  rcases toDigitsCore_chars 10 (n + 1) n [] c hc with h | h
  · exact absurd h (List.not_mem_nil c)
  · exact h

/-- Claim C9: an operator registered without a name displays as the
string op immediately followed by its decimal index with no trailing
underscore (indeed no underscore at all appears in the display), while
an anonymous variable displays as var, its decimal index and a trailing
underscore. -/
theorem claim9_theorem (sig : Signature) (oid ar : Nat)
    (hop : sig.operators[oid]? = some (ar, none)) :
    Operator.display ⟨oid⟩ sig = "op" ++ Nat.repr oid ∧
    (∀ c ∈ (Operator.display ⟨oid⟩ sig).data, c ≠ '_') ∧
    (∀ vid, sig.vars[vid]? = some none →
      Variable.display ⟨vid⟩ sig = "var" ++ Nat.repr vid ++ "_") := by
  have hgetD : sig.operators.getD oid (0, none) = (ar, none) := by
    rw [List.getD_eq_getElem?_getD, hop]
    rfl
  have hdisp : Operator.display ⟨oid⟩ sig = "op" ++ Nat.repr oid := by
    unfold Operator.display
    rw [hgetD]
  refine ⟨hdisp, ?_, ?_⟩
  · intro c hcmem
    rw [hdisp] at hcmem
    rw [String.data_append] at hcmem
    rcases List.mem_append.mp hcmem with h | h
    · have hop2 : c = 'o' ∨ c = 'p' := by
        have hd : "op".data = ['o', 'p'] := rfl
        rw [hd] at h
        simpa using h
      rcases hop2 with rfl | rfl <;> decide
    · obtain ⟨m, hm⟩ := repr_chars oid c h
      rw [hm]
      exact digitChar_ne_underscore m
  · intro vid hv
    have hgv : sig.vars.getD vid none = none := by
      rw [List.getD_eq_getElem?_getD, hv]
      rfl
    unfold Variable.display
    rw [hgv]

/-- Witness for C9 at a concrete signature holding one anonymous
binary operator and one anonymous variable. -/
theorem claim9_witness :
    Operator.display ⟨0⟩ ⟨[(2, none)], [none]⟩ = "op" ++ Nat.repr 0 ∧
    (∀ c ∈ (Operator.display ⟨0⟩ ⟨[(2, none)], [none]⟩).data, c ≠ '_') ∧
    (∀ vid, (⟨[(2, none)], [none]⟩ : Signature).vars[vid]? = some none →
      Variable.display ⟨vid⟩ ⟨[(2, none)], [none]⟩ = "var" ++ Nat.repr vid ++ "_") :=
  claim9_theorem ⟨[(2, none)], [none]⟩ 0 2 rfl

/-- Counterexample for C8: on the empty TRS the index zero is out of
bounds, yet move_rule of zero to zero returns success, because equal
indices short-circuit before the bounds check. -/
theorem claim8_counterexample :
    (⟨false, []⟩ : TRS).rules.length ≤ 0 ∧
    (⟨false, []⟩ : TRS).move_rule 0 0 = (⟨false, []⟩, none) :=
  ⟨by decide, rfl⟩

/-- Claim C8 as amended: move_rule with an out-of-bounds source index
returns the InvalidIndex error and leaves the TRS unchanged, provided
the two indices differ (equal indices return success untouched). -/
theorem claim8_theorem (trs : TRS) (i j : Nat) (hlen : trs.rules.length ≤ i)
    (hne : i ≠ j) :
    trs.move_rule i j = (trs, some (.invalidIndex i trs.rules.length)) := by
  unfold TRS.move_rule
  rw [if_pos hne]
  unfold TRS.remove_idx
  rw [List.getElem?_eq_none hlen]

/-- Witness for C8 at the empty TRS and the index pair one, zero. -/
theorem claim8_witness :
    (⟨false, []⟩ : TRS).rules.length ≤ 1 ∧
    (⟨false, []⟩ : TRS).move_rule 1 0 = (⟨false, []⟩, some (.invalidIndex 1 0)) :=
  ⟨by decide, claim8_theorem ⟨false, []⟩ 1 0 (by decide) (by decide)⟩

theorem findDot_spec {sig : Signature} {binOp : Operator} (h : findDot sig = some binOp) :
    binOp.arity sig = 2 ∧ binOp.name sig = some "." := by
  have hp := List.find?_some h
  simp only [Bool.and_eq_true, beq_iff_eq] at hp
  exact hp

theorem cts_nullary (sig : Signature) (b : Operator) (hb : b.arity sig = 0) :
    TRS.convert_term_to_string (.app b []) sig = some [.op b] := by
  cases hn : b.name sig with
  | none => simp [TRS.convert_term_to_string, hb, hn]
  | some s => simp [TRS.convert_term_to_string, hb, hn]

theorem cts_fold (sig : Signature) (binOp : Operator) (hb2 : binOp.arity sig = 2)
    (hbn : binOp.name sig = some ".") :
    ∀ (rest : List Atom) (acc : Term) (accStr : List Atom),
    TRS.convert_term_to_string acc sig = some accStr →
    (∀ x ∈ rest, ∃ b : Operator, x = .op b ∧ b.arity sig = 0) →
    TRS.convert_term_to_string
      (rest.foldl (fun t c => Term.app binOp [t, atomToLeaf c]) acc) sig =
      some (accStr ++ rest) := by
  intro rest
  induction rest with
  | nil =>
    intro acc accStr hacc _
    rw [List.foldl_nil, List.append_nil]
    exact hacc
  | cons c rest2 ih =>
    intro acc accStr hacc hall
    obtain ⟨b, hcb, hb0⟩ := hall c (List.mem_cons_self c rest2)
    rw [List.foldl_cons]
    have hstep : TRS.convert_term_to_string (Term.app binOp [acc, atomToLeaf c]) sig =
        some (accStr ++ [c]) := by
      have hleaf : TRS.convert_term_to_string (atomToLeaf c) sig = some [c] := by
        rw [hcb]
        exact cts_nullary sig b hb0
      simp [TRS.convert_term_to_string, hb2, hbn, convertArgsToString, hacc, hleaf]
    have := ih (Term.app binOp [acc, atomToLeaf c]) (accStr ++ [c]) hstep
      (fun x hx => hall x (List.mem_cons_of_mem c hx))
    rw [this, List.append_assoc]
    rfl

/-- Counterexample for C6: the atom string holding only the unary
operator G has an operator as its first atom and (vacuously) nullary
remaining atoms, the signature holds a binary dot operator, yet the
round trip fails: convert_to_term wraps G in an argument-less
application whose flattening is undefined. -/
theorem claim6_counterexample :
    (findDot Ex.sigG).isSome = true ∧
    ((TRS.convert_to_term [Atom.op ⟨1⟩] Ex.sigG).bind
      fun t => TRS.convert_term_to_string t Ex.sigG) = none := by
  constructor
  · rfl
  · rw [show TRS.convert_to_term [Atom.op ⟨1⟩] Ex.sigG = some (Term.app ⟨1⟩ []) from rfl,
      Option.some_bind]
    simp +decide [TRS.convert_term_to_string, Operator.name, Operator.arity, Ex.sigG]

/-- Claim C6 as amended: on every nonempty atom string whose first atom
is a nullary operator and whose remaining atoms are nullary operators,
and for every signature holding a binary operator named dot,
convert_term_to_string after convert_to_term returns exactly the
original string. -/
theorem claim6_theorem (sig : Signature) (a : Operator) (rest : List Atom)
    (ha0 : a.arity sig = 0)
    (hall : ∀ x ∈ rest, ∃ b : Operator, x = .op b ∧ b.arity sig = 0)
    (hdot : (findDot sig).isSome) :
    ((TRS.convert_to_term (Atom.op a :: rest) sig).bind
      fun t => TRS.convert_term_to_string t sig) = some (Atom.op a :: rest) := by
  obtain ⟨binOp, hb⟩ := Option.isSome_iff_exists.mp hdot
  obtain ⟨hb2, hbn⟩ := findDot_spec hb
  have hbase : TRS.convert_term_to_string (atomToLeaf (Atom.op a)) sig = some [Atom.op a] :=
    cts_nullary sig a ha0
  simp only [TRS.convert_to_term, hb, Option.some_bind]
  rw [cts_fold sig binOp hb2 hbn rest (atomToLeaf (Atom.op a)) [Atom.op a] hbase hall]
  rw [List.singleton_append]

theorem headGo_first : ∀ (rules : List Rule) (t : Term) (i : Nat) (r : Rule)
    (σ : List (Nat × Term)),
    rules[i]? = some r →
    Term.pmatch [(r.lhs, t)] = some σ →
    r.rhs ≠ [] →
    (∀ j, j < i → ∀ rj, rules[j]? = some rj →
      Term.pmatch [(rj.lhs, t)] = none ∨ rj.rhs = []) →
    headGo rules t = some (r.rhs.map fun c => c.substitute σ) := by
  intro rules
  induction rules with
  | nil =>
    intro t i r σ h1 _ _ _
    simp at h1
  | cons r0 rest ih =>
    intro t i r σ h1 h2 h3 h4
    cases i with
    | zero =>
      rw [List.getElem?_cons_zero] at h1
      have hr : r0 = r := Option.some.inj h1
      subst hr
      have hrw : r0.rewrite t = r0.rhs.map fun c => c.substitute σ := by
        simp only [Rule.rewrite, h2]
      have hne : (r0.rhs.map fun c => c.substitute σ).isEmpty = false := by
        cases hr0 : r0.rhs with
        | nil => exact absurd hr0 h3
        | cons z zs => simp [hr0]
      simp only [headGo, hrw, hne, Bool.false_eq_true, if_false]
    | succ i2 =>
      have h40 := h4 0 (Nat.succ_pos i2) r0 (by rw [List.getElem?_cons_zero])
      have hit : r0.rewrite t = [] := by
        rcases h40 with h | h
        · simp only [Rule.rewrite, h]
        · simp only [Rule.rewrite, h, List.map_nil]
          cases Term.pmatch [(r0.lhs, t)] <;> rfl
      simp only [headGo, hit, List.isEmpty_nil, if_true]
      refine ih t i2 r σ (by simpa using h1) h2 h3 ?_
      intro j hj rj hrj
      exact h4 (j + 1) (by omega) rj (by simpa using hrj)

/-- Counterexample for C1: in the TRS holding the rules F(x) to A and
F(B) to C, both LHSs match the whole term F(B), yet the All strategy
yields only the instantiation A of the first matching rule; the second
matching rule's C never appears. -/
theorem claim1_counterexample :
    Ex.trsC1.rules = [Ex.ruleC1a, Ex.ruleC1b] ∧
    (Term.pmatch [(Ex.ruleC1b.lhs, Ex.tFB)]).isSome = true ∧
    Ex.trsC1.rewrite Ex.tFB .all Ex.sigR = some [Ex.cA] ∧
    Ex.cC ∉ [Ex.cA] := by
  have htrs : Ex.trsC1 = ⟨false, [Ex.ruleC1a, Ex.ruleC1b]⟩ := by
    simp +decide [Ex.trsC1, TRS.new, TRS.pushes, pushesGo, TRS.push, TRS.insert,
      TRS.insert_clauses, TRS.insert_idx, TRS.get, getGo, Term.alpha, alphaGo,
      TRS.move_rule, TRS.remove_idx, insertAt, Rule.len, Ex.ruleC1a, Ex.ruleC1b,
      Ex.vx, Ex.cA, Ex.cB, Ex.cC]
  refine ⟨by rw [htrs], ?_, ?_, by decide⟩
  · simp +decide [Term.pmatch, pmatchGo, Ex.ruleC1b, Ex.tFB, Ex.cB, Ex.cC, subLookup]
  · rw [htrs]
    simp +decide [TRS.rewrite, TRS.rewrite_all, allArgsGo, TRS.rewrite_head, headGo,
      Rule.rewrite, Term.pmatch, pmatchGo, Term.substitute, Term.substituteArgs,
      subLookup, Term.replace, Ex.ruleC1a, Ex.ruleC1b, Ex.tFB, Ex.vx, Ex.cA, Ex.cB,
      Ex.cC]

/-- Claim C1 as amended: under Strategy::All, the head rewrites of an
application are the RHS instantiations of only the first rule (in TRS
order) whose LHS matches the whole term with a nonempty RHS; they are
followed by the subterm rewrites, so later matching rules contribute
nothing at the head. -/
theorem claim1_theorem (trs : TRS) (op : Operator) (args : List Term) (i : Nat)
    (r : Rule) (σ : List (Nat × Term))
    (h1 : trs.rules[i]? = some r)
    (h2 : Term.pmatch [(r.lhs, Term.app op args)] = some σ)
    (h3 : r.rhs ≠ [])
    (h4 : ∀ j, j < i → ∀ rj, trs.rules[j]? = some rj →
      Term.pmatch [(rj.lhs, Term.app op args)] = none ∨ rj.rhs = []) :
    trs.rewrite_all (Term.app op args) =
      some ((r.rhs.map fun c => c.substitute σ) ++
        allArgsGo trs (Term.app op args) 0 args) := by
  have hhead : trs.rewrite_head (Term.app op args) =
      some (r.rhs.map fun c => c.substitute σ) :=
    headGo_first trs.rules (Term.app op args) i r σ h1 h2 h3 h4
  simp only [TRS.rewrite_all, hhead, Option.getD_some]

/-- Witness for C1 at the concrete two-rule TRS and the term F(B). -/
theorem claim1_witness :
    Ex.trsC1.rewrite_all (Term.app ⟨5⟩ [Ex.cB]) =
      some ((Ex.ruleC1a.rhs.map fun c => c.substitute [(0, Ex.cB)]) ++
        allArgsGo Ex.trsC1 (Term.app ⟨5⟩ [Ex.cB]) 0 [Ex.cB]) := by
  have htrs : Ex.trsC1 = ⟨false, [Ex.ruleC1a, Ex.ruleC1b]⟩ := by
    simp +decide [Ex.trsC1, TRS.new, TRS.pushes, pushesGo, TRS.push, TRS.insert,
      TRS.insert_clauses, TRS.insert_idx, TRS.get, getGo, Term.alpha, alphaGo,
      TRS.move_rule, TRS.remove_idx, insertAt, Rule.len, Ex.ruleC1a, Ex.ruleC1b,
      Ex.vx, Ex.cA, Ex.cB, Ex.cC]
  refine claim1_theorem Ex.trsC1 ⟨5⟩ [Ex.cB] 0 Ex.ruleC1a [(0, Ex.cB)] ?_ ?_ ?_ ?_
  · rw [htrs]
    rfl
  · simp +decide [Term.pmatch, pmatchGo, Ex.ruleC1a, Ex.vx, Ex.cB, subLookup]
  · simp [Ex.ruleC1a]
  · intro j hj rj hrj
    exact absurd hj (Nat.not_lt_zero j)

theorem query_diag (sig : Signature) (p_ins : ℚ) (xs : List Atom) :
    ∀ s, PString.query ⟨0, p_ins, 0, 1, .constant 0⟩ sig xs xs 0 0 s = 1 := by
  intro s
  induction s with
  | zero => simp [PString.query]
  | succ s2 ih =>
    simp [PString.query, ih, PString.p_sub]

theorem normalizer_t0 (m : Nat) : PString.normalizer m 0 = 1 := by
  unfold PString.normalizer
  by_cases hm : m = 0
  · rw [if_pos ⟨hm, rfl⟩]
  · rw [if_neg (by intro hc; exact hm hc.1)]
    simp [Nat.zero_min, Nat.zero_max]

theorem rho_ident_zero (p_ins : ℚ) : PString.rho_t ⟨0, p_ins, 0, 1, .constant 0⟩ 0 = 1 := by
  simp [PString.rho_t]

theorem rho_ident_succ (p_ins : ℚ) (t : Nat) :
    PString.rho_t ⟨0, p_ins, 0, 1, .constant 0⟩ (t + 1) = 0 := by
  simp [PString.rho_t]

theorem compute_ident_tail (xs : List Atom) (sig : Signature) (p_ins : ℚ) :
    ∀ (k s : Nat), 1 ≤ s →
    ((List.range' s k).filterMap fun t =>
      if t > xs.length ∨ xs.length > xs.length + t then none
      else some (PString.rho_t ⟨0, p_ins, 0, 1, .constant 0⟩ t *
        PString.query ⟨0, p_ins, 0, 1, .constant 0⟩ sig xs xs t
          (xs.length + t - xs.length) (xs.length - t) *
        PString.normalizer xs.length t)).sum = 0 := by
  intro k
  induction k with
  | zero => intro s _; rfl
  | succ k2 ih =>
    intro s hs
    rw [List.range'_succ, List.filterMap_cons]
    by_cases hc : s > xs.length ∨ xs.length > xs.length + s
    · rw [if_pos hc]
      exact ih (s + 1) (by omega)
    · rw [if_neg hc]
      obtain ⟨s2, rfl⟩ : ∃ s2, s = s2 + 1 := ⟨s - 1, by omega⟩
      rw [List.sum_cons, rho_ident_succ, zero_mul, zero_mul, ih (s2 + 1 + 1) (by omega),
        add_zero]

theorem compute_ident (xs : List Atom) (sig : Signature) (t_max d_max : Nat) (p_ins : ℚ) :
    PString.compute xs xs ⟨0, p_ins, 0, 1, .constant 0⟩ sig t_max d_max = 1 := by
  unfold PString.compute
  simp only [Nat.sub_self, Nat.add_sub_cancel, Nat.sub_zero]
  rw [List.range'_succ, List.filterMap_cons,
    if_neg (by omega : ¬(0 > xs.length ∨ xs.length > xs.length + 0)),
    List.sum_cons, compute_ident_tail xs sig p_ins (min t_max d_max) 1 (by omega),
    add_zero, rho_ident_zero,
    (by omega : xs.length + 0 - xs.length = 0), Nat.sub_zero, query_diag, normalizer_t0]
  norm_num

/-- Claim C7: for every term that converts to a string, with beta zero,
certain substitution one, deletion zero and constant-zero incorrect
substitution (and any insertion probability), the probability whose
natural log p_string returns is exactly one, for every t_max and d_max;
the source therefore returns Some of the log of one, which is zero. -/
theorem claim7_theorem (sig : Signature) (x : Term) (xs : List Atom)
    (t_max d_max : Nat) (p_ins : ℚ)
    (h : TRS.convert_term_to_string x sig = some xs) :
    TRS.p_string_prob x x ⟨0, p_ins, 0, 1, .constant 0⟩ t_max d_max sig = some 1 := by
  unfold TRS.p_string_prob
  rw [h]
  simp [compute_ident]

/-- Witness for C7 at the term dot(dot(A B) C) over a signature with a
binary dot operator. -/
theorem claim7_witness :
    TRS.convert_term_to_string Ex.xDot Ex.sigDot =
      some [Atom.op ⟨1⟩, Atom.op ⟨2⟩, Atom.op ⟨3⟩] ∧
    TRS.p_string_prob Ex.xDot Ex.xDot ⟨0, 5, 0, 1, .constant 0⟩ 4 3 Ex.sigDot = some 1 := by
  have hc : TRS.convert_term_to_string Ex.xDot Ex.sigDot =
      some [Atom.op ⟨1⟩, Atom.op ⟨2⟩, Atom.op ⟨3⟩] := by
    simp +decide [TRS.convert_term_to_string, convertArgsToString, Operator.name,
      Operator.arity, Ex.sigDot, Ex.xDot]
  exact ⟨hc, claim7_theorem Ex.sigDot Ex.xDot _ 4 3 5 hc⟩

/-- Witness for C6 on the two-atom string A B over a signature with a
binary dot operator. -/
theorem claim6_witness :
    ((TRS.convert_to_term [Atom.op ⟨1⟩, Atom.op ⟨2⟩] Ex.sigAB).bind
      fun t => TRS.convert_term_to_string t Ex.sigAB) =
      some [Atom.op ⟨1⟩, Atom.op ⟨2⟩] :=
  claim6_theorem Ex.sigAB ⟨1⟩ [Atom.op ⟨2⟩] rfl
    (by
      intro x hx
      simp only [List.mem_singleton] at hx
      exact ⟨⟨2⟩, hx, rfl⟩)
    rfl

theorem Subterm.trans {s a t : Term} (h1 : Subterm s a) (h2 : Subterm a t) :
    Subterm s t := by
  induction h2 with
  | refl => exact h1
  | arg ha _ ih => exact .arg ha ih

theorem sizeArgs_ge_of_mem {a : Term} : ∀ {args : List Term}, a ∈ args →
    a.size ≤ Term.sizeArgs args := by
  intro args
  induction args with
  | nil => intro h; exact absurd h (List.not_mem_nil a)
  | cons b rest ih =>
    intro h
    rcases List.mem_cons.mp h with h | h
    · rw [h, Term.sizeArgs]
      omega
    · have := ih h
      rw [Term.sizeArgs]
      omega

theorem size_lt_of_mem {a : Term} {args : List Term} (h : a ∈ args) (op : Operator) :
    a.size < (Term.app op args).size := by
  have := sizeArgs_ge_of_mem h
  rw [Term.size]
  omega

theorem unmatched_of_arg {trs : TRS} {op : Operator} {args : List Term} {a : Term}
    (ha : a ∈ args) (H : Unmatched trs (.app op args)) : Unmatched trs a :=
  fun s hs r hr => H s (Subterm.arg ha hs) r hr

theorem headGo_none (rules : List Rule) (t : Term)
    (h : ∀ r ∈ rules, Term.pmatch [(r.lhs, t)] = none) : headGo rules t = none := by
  induction rules with
  | nil => rfl
  | cons r rest ih =>
    have hit : r.rewrite t = [] := by
      simp only [Rule.rewrite, h r (List.mem_cons_self r rest)]
    simp only [headGo, hit, List.isEmpty_nil, if_true]
    exact ih fun r2 h2 => h r2 (List.mem_cons_of_mem r h2)

theorem rewrite_head_none {trs : TRS} {t : Term} (H : Unmatched trs t) :
    trs.rewrite_head t = none :=
  headGo_none trs.rules t (H t (Subterm.refl t))

theorem eagerArgsGo_none (trs : TRS) (sig : Signature) (op : Operator) :
    ∀ (l : List Term) (before : List Term),
    (∀ a ∈ l, trs.eagerRewrites sig a = []) →
    eagerArgsGo trs sig op before l = none := by
  intro l
  induction l with
  | nil => intro before _; simp [eagerArgsGo]
  | cons a rest ih =>
    intro before h
    have ha := h a (List.mem_cons_self a rest)
    simp only [eagerArgsGo, ha, List.isEmpty_nil, if_true]
    exact ih (before ++ [a]) fun b hb => h b (List.mem_cons_of_mem a hb)

theorem eager_empty_bounded (trs : TRS) (sig : Signature) :
    ∀ (n : Nat) (t : Term), t.size ≤ n → Unmatched trs t →
    trs.eagerRewrites sig t = [] := by
  intro n
  induction n with
  | zero =>
    intro t hsz _
    have := Term.size_pos t
    omega
  | succ n2 ih =>
    intro t hsz H
    cases t with
    | var v =>
      simp only [TRS.eagerRewrites, rewrite_head_none H, Option.getD_none]
    | app op args =>
      have hargs : eagerArgsGo trs sig op [] args = none := by
        refine eagerArgsGo_none trs sig op args [] fun a ha => ?_
        have hlt := size_lt_of_mem ha op
        exact ih a (by omega) (unmatched_of_arg ha H)
      simp only [TRS.eagerRewrites, hargs, rewrite_head_none H, Option.getD_none]

theorem allArgsGo_empty (trs : TRS) (t0 : Term) :
    ∀ (l : List Term) (i : Nat),
    (∀ a ∈ l, (trs.rewrite_all a).getD [] = []) →
    allArgsGo trs t0 i l = [] := by
  intro l
  induction l with
  | nil => intro i _; simp [allArgsGo]
  | cons a rest ih =>
    intro i h
    simp only [allArgsGo, h a (List.mem_cons_self a rest), List.map_nil, List.nil_append]
    exact ih (i + 1) fun b hb => h b (List.mem_cons_of_mem a hb)

theorem all_empty_bounded (trs : TRS) :
    ∀ (n : Nat) (t : Term), t.size ≤ n → Unmatched trs t →
    (trs.rewrite_all t).getD [] = [] := by
  intro n
  induction n with
  | zero =>
    intro t hsz _
    have := Term.size_pos t
    omega
  | succ n2 ih =>
    intro t hsz H
    cases t with
    | var v => simp [TRS.rewrite_all]
    | app op args =>
      have hargs : allArgsGo trs (Term.app op args) 0 args = [] := by
        refine allArgsGo_empty trs (Term.app op args) args 0 fun a ha => ?_
        have hlt := size_lt_of_mem ha op
        exact ih a (by omega) (unmatched_of_arg ha H)
      simp only [TRS.rewrite_all, rewrite_head_none H, Option.getD_none, hargs,
        List.nil_append, Option.getD_some]

theorem normalLoop_nil (trs : TRS) : normalLoop trs [] = .nomatch := by
  unfold normalLoop
  rfl

theorem normalLoop_cons (trs : TRS) (op : Operator) (arg : Nat) (args : List Term)
    (stack : List Frame) :
    normalLoop trs ((op, arg, args) :: stack) =
      match args[arg]? with
      | none => .panic
      | some (Term.var _) => normalLoop trs stack
      | some (Term.app newOp newArgs) =>
        match trs.rewrite_head (Term.app newOp newArgs) with
        | some rws => .found ((op, arg, args) :: stack) rws
        | none =>
          normalLoop trs
            ((if newArgs.isEmpty then [] else [(newOp, 0, newArgs)]) ++
              (if arg + 1 < args.length then [(op, arg + 1, args)] else []) ++ stack) := by
  conv_lhs => unfold normalLoop
  split
  · rename_i heq
    simp only [heq]
  · rename_i heq
    simp only [heq]
  · rename_i heq
    split
    · rename_i heq2
      simp only [heq, heq2]
    · rename_i heq2
      simp only [heq, heq2, dite_eq_ite]

theorem normalLoop_nomatch (trs : TRS) : ∀ (st : List Frame),
    (∀ f ∈ st, (∀ a ∈ f.2.2, Unmatched trs a) ∧ f.2.1 < f.2.2.length) →
    normalLoop trs st = .nomatch := by
  intro st
  induction st using normalLoop.induct trs with
  | case1 => intro _; exact normalLoop_nil trs
  | case2 op arg args stack h =>
    intro hinv
    have hb := (hinv (op, arg, args) (List.mem_cons_self _ _)).2
    rw [List.getElem?_eq_getElem hb] at h
    exact absurd h (Option.noConfusion)
  | case3 op arg args stack v h ih =>
    intro hinv
    simp only [normalLoop_cons, h]
    exact ih fun f hf => hinv f (List.mem_cons_of_mem _ hf)
  | case4 op arg args stack newOp newArgs h rws hfound =>
    intro hinv
    have hmem : Term.app newOp newArgs ∈ args := List.getElem?_mem h
    have hun : Unmatched trs (Term.app newOp newArgs) :=
      (hinv (op, arg, args) (List.mem_cons_self _ _)).1 _ hmem
    rw [rewrite_head_none hun] at hfound
    exact absurd hfound (Option.noConfusion)
  | case5 op arg args stack newOp newArgs h hnone ih =>
    intro hinv
    simp only [normalLoop_cons, h, hnone]
    simp only [dite_eq_ite] at ih
    refine ih fun f hf => ?_
    have hcur := hinv (op, arg, args) (List.mem_cons_self _ _)
    rcases List.mem_append.mp hf with hf1 | hf2
    · rcases List.mem_append.mp hf1 with hc | hs
      · by_cases he : newArgs.isEmpty
        · rw [if_pos he] at hc
          exact absurd hc (List.not_mem_nil f)
        · rw [if_neg he] at hc
          have hfe : f = (newOp, 0, newArgs) := List.mem_singleton.mp hc
          subst hfe
          have hmem : Term.app newOp newArgs ∈ args := List.getElem?_mem h
          have hun : Unmatched trs (Term.app newOp newArgs) :=
            hcur.1 _ hmem
          refine ⟨fun a ha => unmatched_of_arg ha hun, ?_⟩
          have : newArgs ≠ [] := fun hnil => he (by rw [hnil]; rfl)
          cases hn : newArgs with
          | nil => exact absurd hn this
          | cons z zs => simp [hn]
      · by_cases hsib : arg + 1 < args.length
        · rw [if_pos hsib] at hs
          have hfe : f = (op, arg + 1, args) := List.mem_singleton.mp hs
          subst hfe
          exact ⟨hcur.1, hsib⟩
        · rw [if_neg hsib] at hs
          exact absurd hs (List.not_mem_nil f)
    · exact hinv f (List.mem_cons_of_mem _ hf2)

/-- Counterexample for C2, exhibiting all three failures of the claim
on concrete inputs.  First, with the rule A = A the Normal strategy
rewrites the constant A to A itself, so the sequence contains the input
term.  Second, with the unrelated rule B = C the Normal strategy on the
constant A finds no redex but indexes the empty argument slice, a panic
in the source (modelled as none) rather than an empty sequence.
Third, under the String strategy the rule whose LHS flattens to the
string x A rewrites the term A (the variable matches the empty
segment) although no subterm of A is matched by the rule LHS via
pmatch; the only subterm of the constant A is A itself. -/
theorem claim2_counterexample :
    Ex.trsAA.rewrite Ex.cA .normal Ex.sigR = some [Ex.cA] ∧
    Ex.trsBC.rewrite Ex.cA .normal Ex.sigR = none ∧
    Term.pmatch [(Ex.ruleS.lhs, Ex.sA)] = none ∧
    Ex.trsS.rewrite Ex.sA .string Ex.sigS = some [Ex.sA] := by
  have haa : Ex.trsAA = ⟨false, [⟨Ex.cA, [Ex.cA]⟩]⟩ := by
    simp +decide [Ex.trsAA, TRS.new, TRS.pushes, pushesGo, TRS.push, TRS.insert,
      TRS.insert_clauses, TRS.insert_idx, TRS.get, getGo, Term.alpha, alphaGo,
      TRS.move_rule, TRS.remove_idx, insertAt, Rule.len, Ex.cA]
  have hbc : Ex.trsBC = ⟨false, [⟨Ex.cB, [Ex.cC]⟩]⟩ := by
    simp +decide [Ex.trsBC, TRS.new, TRS.pushes, pushesGo, TRS.push, TRS.insert,
      TRS.insert_clauses, TRS.insert_idx, TRS.get, getGo, Term.alpha, alphaGo,
      TRS.move_rule, TRS.remove_idx, insertAt, Rule.len, Ex.cB, Ex.cC]
  have hs : Ex.trsS = ⟨false, [Ex.ruleS]⟩ := by
    simp +decide [Ex.trsS, TRS.new, TRS.pushes, pushesGo, TRS.push, TRS.insert,
      TRS.insert_clauses, TRS.insert_idx, TRS.get, getGo, Term.alpha, alphaGo,
      TRS.move_rule, TRS.remove_idx, insertAt, Rule.len, Ex.ruleS, Ex.sA]
  refine ⟨?_, ?_, ?_, ?_⟩
  · rw [haa]
    simp +decide [TRS.rewrite, TRS.normalRewrites, TRS.rewrite_head, headGo,
      Rule.rewrite, Term.pmatch, pmatchGo, Term.substitute, Term.substituteArgs,
      Ex.cA]
  · rw [hbc]
    simp +decide [TRS.rewrite, TRS.normalRewrites, TRS.rewrite_head, headGo,
      Rule.rewrite, Term.pmatch, pmatchGo, normalLoop, Ex.cA, Ex.cB, Ex.cC]
  · simp +decide [Term.pmatch, pmatchGo, Ex.ruleS, Ex.sA]
  · rw [hs]
    simp +decide [TRS.rewrite, TRS.rewrite_as_string, TRS.convert_term_to_string,
      convertArgsToString, rulesLoop, TRS.convert_rule_to_strings, TRS.gen_breaks,
      TRS.valid_option, breaksLoop, TRS.match_pattern, matchPatternGo, atomsLookup,
      rhssLoop, TRS.substitute_pattern, TRS.convert_to_term, findDot, atomToLeaf,
      Operator.name, Operator.arity, Ex.ruleS, Ex.sA, Ex.sigS, List.sublistsLen,
      List.range, List.mapM, List.mapM.loop, List.range.loop, List.filter, List.all]

/-- Claim C2 as amended: for the strategies Normal, Eager and All, when
no subterm of the input term is matched by any rule's LHS, the rewrite
sequence is empty; for Normal the input must be a variable or an
application with at least one argument, because the source indexes the
first argument of the initial search frame and panics on argument-less
applications.  The claim's other half does not hold: the sequence can
contain the input term (a rule such as A = A rewrites A to itself), and
the String strategy can rewrite without any pmatch redex. -/
theorem claim2_theorem (trs : TRS) (sig : Signature) (t : Term)
    (H : Unmatched trs t) :
    trs.rewrite t .eager sig = some [] ∧
    trs.rewrite t .all sig = some [] ∧
    (∀ op args, t = Term.app op args → args ≠ [] →
      trs.rewrite t .normal sig = some []) ∧
    (∀ v, t = Term.var v → trs.rewrite t .normal sig = some []) := by
  refine ⟨?_, ?_, ?_, ?_⟩
  · show some (trs.eagerRewrites sig t) = some []
    rw [eager_empty_bounded trs sig t.size t (Nat.le_refl _) H]
  · show some ((trs.rewrite_all t).getD []) = some []
    rw [all_empty_bounded trs t.size t (Nat.le_refl _) H]
  · intro op args ht hne
    subst ht
    show trs.normalRewrites (Term.app op args) = some []
    have hloop : normalLoop trs [(op, 0, args)] = .nomatch := by
      refine normalLoop_nomatch trs [(op, 0, args)] fun f hf => ?_
      have hfe : f = (op, 0, args) := List.mem_singleton.mp hf
      subst hfe
      refine ⟨fun a ha => unmatched_of_arg ha H, ?_⟩
      cases hn : args with
      | nil => exact absurd hn hne
      | cons z zs => simp [hn]
    simp only [TRS.normalRewrites, rewrite_head_none H, hloop]
  · intro v ht
    subst ht
    rfl

/-- Witness for C2 at a variable term over the TRS holding the single
rule B = C, whose LHS matches no subterm of the variable. -/
theorem claim2_witness :
    Ex.trsBC.rewrite (Term.var ⟨0⟩) .eager Ex.sigR = some [] ∧
    Ex.trsBC.rewrite (Term.var ⟨0⟩) .all Ex.sigR = some [] ∧
    (∀ op args, (Term.var ⟨0⟩ : Term) = Term.app op args → args ≠ [] →
      Ex.trsBC.rewrite (Term.var ⟨0⟩) .normal Ex.sigR = some []) ∧
    (∀ v, (Term.var ⟨0⟩ : Term) = Term.var v →
      Ex.trsBC.rewrite (Term.var ⟨0⟩) .normal Ex.sigR = some []) := by
  refine claim2_theorem Ex.trsBC Ex.sigR (Term.var ⟨0⟩) ?_
  intro s hs r hr
  have hse : s = Term.var ⟨0⟩ := by cases hs; rfl
  subst hse
  have hbc : Ex.trsBC = ⟨false, [⟨Ex.cB, [Ex.cC]⟩]⟩ := by
    simp +decide [Ex.trsBC, TRS.new, TRS.pushes, pushesGo, TRS.push, TRS.insert,
      TRS.insert_clauses, TRS.insert_idx, TRS.get, getGo, Term.alpha, alphaGo,
      TRS.move_rule, TRS.remove_idx, insertAt, Rule.len, Ex.cB, Ex.cC]
  rw [hbc] at hr
  have hre : r = ⟨Ex.cB, [Ex.cC]⟩ := List.mem_singleton.mp hr
  subst hre
  simp +decide [Term.pmatch, pmatchGo, Ex.cB]

/-- Counterexample for C10: the empty list NIL and the singleton list
holding the numeral one both convert successfully, yet with t_max zero
no insertion count is feasible, the computed probability is zero, and
the source returns the natural log of zero, which is negative infinity
in f64; so p_list returns negative infinity although neither conversion
failed, refuting the iff of the claim. -/
theorem claim10_counterexample :
    TRS.convert_list_to_string Ex.nilT Ex.sigL = some ([], Ex.sigL) ∧
    TRS.convert_list_to_string Ex.yList Ex.sigL = some ([Atom.op ⟨4⟩], Ex.sigL) ∧
    TRS.p_list_prob Ex.nilT Ex.yList Ex.distZero 0 0 Ex.sigL = some 0 := by
  have hnil : TRS.convert_list_to_string Ex.nilT Ex.sigL = some ([], Ex.sigL) := by
    simp +decide [TRS.convert_list_to_string, Term.as_guarded_application,
      Operator.name, Operator.arity, Ex.nilT, Ex.sigL]
  have hy : TRS.convert_list_to_string Ex.yList Ex.sigL = some ([Atom.op ⟨4⟩], Ex.sigL) := by
    simp +decide [TRS.convert_list_to_string, Term.as_guarded_application,
      Operator.name, Operator.arity, Ex.yList, Ex.nilT, Ex.sigL, TRS.num_to_atom,
      TRS.num_to_usize, TRS.digit_to_usize, Term.as_application, findNumOp,
      List.range, List.range.loop]
  refine ⟨hnil, hy, ?_⟩
  have hcomp : PString.compute [] [Atom.op ⟨4⟩] Ex.distZero Ex.sigL 0 0 = 0 := by
    unfold PString.compute
    simp
  unfold TRS.p_list_prob
  simp only [hnil, hy, hcomp]

/-- Claim C10 as amended: p_list returns negative infinity if and only
if at least one of the two list conversions fails or the computed
probability is zero (the f64 natural log of zero being negative
infinity); when both conversions succeed it returns the natural log of
the edit-distance probability computed on the converted strings.  The
theorem characterises the probability-level model: the result is none
exactly when a conversion fails, and otherwise it is the computed
probability, whose log the source returns. -/
theorem claim10_theorem (x y : Term) (dist : PStringDist) (t_max d_max : Nat)
    (sig : Signature) :
    ((TRS.p_list_prob x y dist t_max d_max sig).isNone ↔
      ((TRS.convert_list_to_string x sig).isNone ∨
        ∃ xs sig1, TRS.convert_list_to_string x sig = some (xs, sig1) ∧
          (TRS.convert_list_to_string y sig1).isNone)) ∧
    (∀ xs sig1 ys sig2, TRS.convert_list_to_string x sig = some (xs, sig1) →
      TRS.convert_list_to_string y sig1 = some (ys, sig2) →
      TRS.p_list_prob x y dist t_max d_max sig =
        some (PString.compute xs ys dist sig2 t_max d_max)) := by
  constructor
  · rcases hx : TRS.convert_list_to_string x sig with _ | ⟨xs, sig1⟩
    · unfold TRS.p_list_prob
      simp [hx]
    · rcases hy : TRS.convert_list_to_string y sig1 with _ | ⟨ys, sig2⟩
      · unfold TRS.p_list_prob
        simp only [hx, hy, Option.isNone_none, Option.isNone_some, false_or]
        constructor
        · intro _
          exact Or.inr ⟨xs, sig1, rfl, by rw [hy]; rfl⟩
        · intro _
          trivial
      · unfold TRS.p_list_prob
        simp only [hx, hy, Option.isNone_some, false_or]
        constructor
        · intro hcon
          simp at hcon
        · rintro (hfalse | ⟨xs2, sig12, heq, hnone⟩)
          · exact hfalse
          · injection heq with hpair
            cases hpair
            rw [hy] at hnone
            simp at hnone
  · intro xs sig1 ys sig2 hx hy
    unfold TRS.p_list_prob
    simp only [hx, hy]

/-- Witness for the C10 theorem: at the concrete lists NIL and
[one], with zero distribution, both conversion hypotheses hold and the
theorem's value clause yields the computed probability. -/
theorem claim10_witness :
    TRS.p_list_prob Ex.nilT Ex.yList Ex.distZero 0 0 Ex.sigL =
      some (PString.compute [] [Atom.op ⟨4⟩] Ex.distZero Ex.sigL 0 0) := by
  have hnil : TRS.convert_list_to_string Ex.nilT Ex.sigL = some ([], Ex.sigL) := by
    simp +decide [TRS.convert_list_to_string, Term.as_guarded_application,
      Operator.name, Operator.arity, Ex.nilT, Ex.sigL]
  have hy : TRS.convert_list_to_string Ex.yList Ex.sigL = some ([Atom.op ⟨4⟩], Ex.sigL) := by
    simp +decide [TRS.convert_list_to_string, Term.as_guarded_application,
      Operator.name, Operator.arity, Ex.yList, Ex.nilT, Ex.sigL, TRS.num_to_atom,
      TRS.num_to_usize, TRS.digit_to_usize, Term.as_application, findNumOp,
      List.range, List.range.loop]
  exact (claim10_theorem Ex.nilT Ex.yList Ex.distZero 0 0 Ex.sigL).2
    [] Ex.sigL [Atom.op ⟨4⟩] Ex.sigL hnil hy


theorem insertAt_zero (l : List Rule) (r : Rule) : insertAt l 0 r = r :: l := by
  simp [insertAt]

theorem insert_idx_unchanged (trs : TRS) (idx : Nat) (rule : Rule) :
    (trs.insert_idx idx rule).2.isSome → (trs.insert_idx idx rule).1 = trs := by
  unfold TRS.insert_idx
  split
  · intro _; rfl
  · split
    · intro _; rfl
    · split
      · intro _; rfl
      · intro h; simp at h

theorem insert_clauses_unchanged (trs : TRS) (rule : Rule) :
    (trs.insert_clauses rule).2.isSome → (trs.insert_clauses rule).1 = trs := by
  unfold TRS.insert_clauses
  split
  · intro _; rfl
  · split
    · intro h; simp at h
    · intro _; rfl

theorem insert_unchanged (trs : TRS) (idx : Nat) (rule : Rule) :
    (trs.insert idx rule).2.isSome → (trs.insert idx rule).1 = trs := by
  unfold TRS.insert
  split
  · intro h; simp at h
  · exact insert_idx_unchanged trs idx rule

theorem remove_idx_unchanged (trs : TRS) (idx : Nat) (e : TRSError) :
    (trs.remove_idx idx).2 = .error e → (trs.remove_idx idx).1 = trs := by
  unfold TRS.remove_idx
  split
  · intro h; simp at h
  · intro _; rfl

theorem remove_unchanged (trs : TRS) (lhs : Term) (e : TRSError) :
    (trs.remove lhs).2 = .error e → (trs.remove lhs).1 = trs := by
  unfold TRS.remove
  split
  · intro h; simp at h
  · intro _; rfl

theorem remove_clauses_unchanged (trs : TRS) (rule : Rule) (e : TRSError) :
    (trs.remove_clauses rule).2 = .error e → (trs.remove_clauses rule).1 = trs := by
  unfold TRS.remove_clauses
  split
  · intro h; simp at h
  · intro _; rfl

theorem zip_self_diag {α : Type} (as : List α) : ∀ p ∈ as.zip as, p.1 = p.2 := by
  induction as with
  | nil => intro p hp; simp at hp
  | cons a rest ih =>
    intro p hp
    simp only [List.zip_cons_cons] at hp
    rcases List.mem_cons.mp hp with h | h
    · rw [h]
    · exact ih p h

theorem alphaGo_diag : ∀ (m : List (Nat × Nat)) (ps : List (Term × Term)),
    (∀ p ∈ m, p.1 = p.2) → (∀ p ∈ ps, p.1 = p.2) → (alphaGo m ps).isSome := by
  intro m ps
  induction m, ps using alphaGo.induct with
  | case1 m => intro _ _; simp [alphaGo]
  | case2 m a b rest hmem ih =>
    intro hm hp
    rw [alphaGo, if_pos hmem]
    exact ih hm fun p hq => hp p (List.mem_cons_of_mem _ hq)
  | case3 m a b rest hmem hex =>
    intro hm hp
    have hab : a = b := by
      have := hp (Term.var a, Term.var b) (List.mem_cons_self _ _)
      simpa using this
    exfalso
    rcases hex with ⟨p, hpm, hp1⟩ | ⟨p, hpm, hp2⟩
    · have h2 := hm p hpm
      have hpe : p = (a.id, b.id) := by
        cases p
        simp only at h2 hp1
        subst hab
        simp [hp1, h2.symm.trans hp1]
      exact hmem (hpe ▸ hpm)
    · have h2 := hm p hpm
      have hpe : p = (a.id, b.id) := by
        cases p
        simp only at h2 hp2
        subst hab
        simp [hp2, h2.trans hp2]
      exact hmem (hpe ▸ hpm)
  | case4 m a b rest hmem hex ih =>
    intro hm hp
    rw [alphaGo, if_neg hmem, if_neg hex]
    have hab : a = b := by
      have := hp (Term.var a, Term.var b) (List.mem_cons_self _ _)
      simpa using this
    refine ih ?_ fun p hq => hp p (List.mem_cons_of_mem _ hq)
    intro p hpq
    rcases List.mem_cons.mp hpq with h | h
    · rw [h, hab]
    · exact hm p h
  | case5 m f as g bs rest h ih =>
    intro hm hp
    rw [alphaGo, dif_pos h]
    refine ih hm ?_
    intro p hpq
    rcases List.mem_append.mp hpq with h1 | h1
    · have heq : Term.app f as = Term.app g bs := by
        have := hp (Term.app f as, Term.app g bs) (List.mem_cons_self _ _)
        simpa using this
      have hargs : as = bs := by injection heq
      subst hargs
      exact zip_self_diag as p h1
    · exact hp p (List.mem_cons_of_mem _ h1)
  | case6 m f as g bs rest h =>
    intro hm hp
    exfalso
    have heq : Term.app f as = Term.app g bs := by
      have := hp (Term.app f as, Term.app g bs) (List.mem_cons_self _ _)
      simpa using this
    injection heq with h1 h2
    exact h ⟨h1, by rw [h2]⟩
  | case7 m v f args rest =>
    intro hm hp
    exfalso
    have := hp (Term.var v, Term.app f args) (List.mem_cons_self _ _)
    simp at this
  | case8 m f args v rest =>
    intro hm hp
    exfalso
    have := hp (Term.app f args, Term.var v) (List.mem_cons_self _ _)
    simp at this

theorem alpha_refl (t : Term) : (Term.alpha [(t, t)]).isSome :=
  alphaGo_diag [] [(t, t)] (by simp) (by simp)

theorem merge_lhs (r other : Rule) : (r.merge other).lhs = r.lhs := by
  unfold Rule.merge; split <;> rfl

theorem getGo_some {rules : List Rule} {lhs : Term} :
    ∀ {i j : Nat} {r : Rule}, getGo rules i lhs = some (j, r) →
      i ≤ j ∧ j - i < rules.length ∧ rules[j - i]? = some r ∧
        (Term.alpha [(lhs, r.lhs)]).isSome := by
  induction rules with
  | nil => intro i j r h; simp [getGo] at h
  | cons r0 rest ih =>
    intro i j r h
    rw [getGo] at h
    split at h
    · rename_i hal
      simp only [Option.some.injEq, Prod.mk.injEq] at h
      obtain ⟨rfl, rfl⟩ := h
      exact ⟨Nat.le_refl _, by simp, by simp, hal⟩
    · obtain ⟨h1, h2, h3, h4⟩ := ih h
      refine ⟨by omega, by simp; omega, ?_, h4⟩
      have hji : j - i = (j - (i + 1)) + 1 := by omega
      rw [hji]
      simpa using h3

theorem getGo_isSome {rules : List Rule} {lhs : Term} {j : Nat} {r : Rule}
    (hj : rules[j]? = some r) (hal : (Term.alpha [(lhs, r.lhs)]).isSome) :
    ∀ i, (getGo rules i lhs).isSome := by
  induction rules generalizing j with
  | nil => simp at hj
  | cons r0 rest ih =>
    intro i
    rw [getGo]
    split
    · simp
    · rename_i h0
      cases j with
      | zero =>
        simp only [List.getElem?_cons_zero, Option.some.injEq] at hj
        subst hj
        exact absurd hal h0
      | succ j2 => exact ih (by simpa using hj) (i + 1)

theorem insert_clauses_eq_det {trs : TRS} (rule : Rule)
    (hdet : trs.is_deterministic = true) :
    trs.insert_clauses rule = (trs, some .nondeterministicRule) := by
  unfold TRS.insert_clauses
  rw [hdet]
  simp

theorem insert_clauses_ok_inv {trs t2 : TRS} {rule : Rule}
    (h : trs.insert_clauses rule = (t2, none)) :
    ∃ i r, trs.get rule.lhs = some (i, r) ∧ trs.is_deterministic = false ∧
      t2 = ⟨trs.is_deterministic, trs.rules.set i (r.merge rule)⟩ := by
  unfold TRS.insert_clauses at h
  split at h
  · simp at h
  · rename_i hdet
    split at h
    · rename_i i r hget
      simp only [Prod.mk.injEq] at h
      exact ⟨i, r, hget, by simpa using hdet, h.1.symm⟩
    · simp at h

theorem insert_idx_ok_inv {trs t1 : TRS} {idx : Nat} {rule : Rule}
    (h : trs.insert_idx idx rule = (t1, none)) :
    trs.get rule.lhs = none ∧ t1 = ⟨trs.is_deterministic, insertAt trs.rules idx rule⟩ := by
  unfold TRS.insert_idx at h
  split at h
  · simp at h
  · split at h
    · simp at h
    · split at h
      · simp at h
      · rename_i hg
        simp only [Prod.mk.injEq] at h
        refine ⟨?_, h.1.symm⟩
        cases hgg : trs.get rule.lhs with
        | none => rfl
        | some p => rw [hgg] at hg; simp at hg

theorem insert_eq_of_clauses_ok {trs t2 : TRS} {rule : Rule} (idx : Nat)
    (h : trs.insert_clauses rule = (t2, none)) :
    trs.insert idx rule = (t2, none) := by
  unfold TRS.insert
  rw [h]

theorem insert_eq_of_clauses_err {trs t2 : TRS} {rule : Rule} {e : TRSError} (idx : Nat)
    (h : trs.insert_clauses rule = (t2, some e)) :
    trs.insert idx rule = trs.insert_idx idx rule := by
  unfold TRS.insert
  rw [h]

theorem insert_ok_cases {trs t1 : TRS} {idx : Nat} {rule : Rule}
    (h : trs.insert idx rule = (t1, none)) :
    (∃ i r, trs.get rule.lhs = some (i, r) ∧ trs.is_deterministic = false ∧
      t1 = ⟨trs.is_deterministic, trs.rules.set i (r.merge rule)⟩) ∨
    (trs.get rule.lhs = none ∧ t1 = ⟨trs.is_deterministic, insertAt trs.rules idx rule⟩) := by
  rcases hcl : trs.insert_clauses rule with ⟨t2, ec⟩
  cases ec with
  | none =>
    rw [insert_eq_of_clauses_ok idx hcl] at h
    obtain ⟨i, r, hget, hdet, ht2⟩ := insert_clauses_ok_inv hcl
    simp only [Prod.mk.injEq] at h
    exact Or.inl ⟨i, r, hget, hdet, by rw [← h.1, ht2]⟩
  | some e =>
    rw [insert_eq_of_clauses_err idx hcl] at h
    exact Or.inr (insert_idx_ok_inv h)

theorem insert0_noerr (trs : TRS) (rule : Rule) (hdet : trs.is_deterministic = false) :
    (trs.insert 0 rule).2 = none := by
  cases hget : trs.get rule.lhs with
  | some p =>
    have hcl : trs.insert_clauses rule =
        (⟨trs.is_deterministic, trs.rules.set p.1 (p.2.merge rule)⟩, none) := by
      unfold TRS.insert_clauses
      rw [hdet, hget]
      simp
    rw [insert_eq_of_clauses_ok 0 hcl]
  | none =>
    have hcl : trs.insert_clauses rule = (trs, some .notInTRS) := by
      unfold TRS.insert_clauses
      rw [hdet, hget]
      simp
    rw [insert_eq_of_clauses_err 0 hcl]
    unfold TRS.insert_idx
    rw [hdet]
    simp [hget]

theorem move_rule0_noerr (trs : TRS) (i : Nat) (hdet : trs.is_deterministic = false)
    (hlt : i < trs.rules.length) : (trs.move_rule i 0).2 = none := by
  unfold TRS.move_rule
  by_cases hij : i ≠ 0
  · rw [if_pos hij]
    obtain ⟨r, hr⟩ : ∃ r, trs.rules[i]? = some r := by
      simp [List.getElem?_eq_getElem hlt]
    have hrem : trs.remove_idx i = (⟨trs.is_deterministic, trs.rules.eraseIdx i⟩, .ok r) := by
      unfold TRS.remove_idx
      rw [hr]
    rw [hrem]
    exact insert0_noerr _ _ hdet
  · rw [if_neg hij]

theorem push_eq_of_ins_err {trs t1 : TRS} {rule : Rule} {e : TRSError}
    (hins : trs.insert 0 rule = (t1, some e)) : trs.push rule = (t1, some e) := by
  unfold TRS.push
  rw [hins]

theorem push_eq_of_get_some {trs t1 : TRS} {rule : Rule} {j : Nat} {r2 : Rule}
    (hins : trs.insert 0 rule = (t1, none)) (hg : t1.get rule.lhs = some (j, r2)) :
    trs.push rule = t1.move_rule j 0 := by
  unfold TRS.push
  rw [hins]
  show (match t1.get rule.lhs with
        | some (idx, _) => t1.move_rule idx 0
        | none => (t1, some TRSError.notInTRS)) = t1.move_rule j 0
  rw [hg]

theorem push_unchanged (trs : TRS) (rule : Rule) :
    (trs.push rule).2.isSome → (trs.push rule).1 = trs := by
  intro h
  rcases hins : trs.insert 0 rule with ⟨t1, e⟩
  cases e with
  | some err =>
    rw [push_eq_of_ins_err hins]
    have h2 := insert_unchanged trs 0 rule (by rw [hins]; rfl)
    rw [hins] at h2
    exact h2
  | none =>
    rcases insert_ok_cases hins with ⟨i, r, hget, hdetf, ht1⟩ | ⟨hget, ht1⟩
    · have hget2 : getGo trs.rules 0 rule.lhs = some (i, r) := hget
      have hspec := getGo_some hget2
      have hlen : i < trs.rules.length := by simpa using hspec.2.1
      have hset : t1.rules[i]? = some (r.merge rule) := by
        rw [ht1]
        simp [List.getElem?_set_self, hlen]
      have halpha : (Term.alpha [(rule.lhs, (r.merge rule).lhs)]).isSome := by
        rw [merge_lhs]
        exact hspec.2.2.2
      have hgs := getGo_isSome hset halpha 0
      rcases hg2 : t1.get rule.lhs with _ | ⟨j, r2⟩
      · unfold TRS.get at hg2
        rw [hg2] at hgs
        simp at hgs
      · have hj : j < t1.rules.length := by
          have := getGo_some (hg2 : getGo t1.rules 0 rule.lhs = some (j, r2))
          simpa using this.2.1
        have hdet1 : t1.is_deterministic = false := by rw [ht1]; exact hdetf
        have hmv := move_rule0_noerr t1 j hdet1 hj
        rw [push_eq_of_get_some hins hg2, hmv] at h
        simp at h
    · have ht1r : t1.rules = rule :: trs.rules := by rw [ht1]; simp [insertAt]
      have hg : t1.get rule.lhs = some (0, rule) := by
        unfold TRS.get
        rw [ht1r, getGo, if_pos (alpha_refl rule.lhs)]
      have hmv : t1.move_rule 0 0 = (t1, none) := by
        unfold TRS.move_rule
        simp
      rw [push_eq_of_get_some hins hg, hmv] at h
      simp at h

/-- Counterexample for C3: four mutation operations return an error
while leaving the TRS changed.  move_rule removes the rule and fails to
re-insert it at an out-of-range index; pushes and inserts_idx keep the
effect of earlier successful pushes or insertions when a later one
fails; replace removes the clauses of the first rule and then fails the
final insertion, so the error is reported on a TRS that lost a rule. -/
theorem claim3_counterexample :
    (Ex.trsOne.move_rule 0 5 = (⟨false, []⟩, some (.invalidIndex 5 0)) ∧
      (⟨false, []⟩ : TRS) ≠ Ex.trsOne) ∧
    (Ex.trsDet.pushes [Ex.ruleAB2, Ex.ruleDE] =
      (⟨true, [Ex.ruleDE]⟩, some .nondeterministicRule) ∧
      (⟨true, [Ex.ruleDE]⟩ : TRS) ≠ Ex.trsDet) ∧
    (TRS.inserts_idx ⟨false, []⟩ 0 [Ex.ruleAB, Ex.ruleAB] =
      (⟨false, [Ex.ruleAB]⟩, some .alreadyInTRS) ∧
      (⟨false, [Ex.ruleAB]⟩ : TRS) ≠ (⟨false, []⟩ : TRS)) ∧
    (Ex.trsOne.replace 5 Ex.ruleAB Ex.ruleDE = (⟨false, []⟩, some (.invalidIndex 5 0)) ∧
      (⟨false, []⟩ : TRS) ≠ Ex.trsOne) := by
  refine ⟨⟨?_, by decide⟩, ⟨?_, by decide⟩, ⟨?_, by decide⟩, ⟨?_, by decide⟩⟩
  · simp +decide [TRS.move_rule, TRS.remove_idx, TRS.insert, TRS.insert_clauses,
      TRS.insert_idx, TRS.get, getGo, Term.alpha, alphaGo, Ex.trsOne, Ex.ruleAB,
      Ex.ruleDE, Ex.cA, Ex.cB, Ex.cD, Ex.cE]
  · simp +decide [TRS.pushes, pushesGo, TRS.push, TRS.insert, TRS.insert_clauses,
      TRS.insert_idx, TRS.get, getGo, Term.alpha, alphaGo, TRS.move_rule, insertAt,
      TRS.remove_idx, Ex.trsDet, Ex.ruleAB2, Ex.ruleDE, Ex.cA, Ex.cB, Ex.cC,
      Ex.cD, Ex.cE, Rule.len]
  · simp +decide [TRS.inserts_idx, insertsIdxGo, TRS.insert_idx, TRS.get, getGo,
      Term.alpha, alphaGo, insertAt, Ex.ruleAB, Ex.cA, Ex.cB, Rule.len]
  · simp +decide [TRS.replace, TRS.remove_clauses, discardFirst, Rule.discard,
      clauseAlpha, Term.alpha, alphaGo, TRS.insert, TRS.insert_clauses,
      TRS.insert_idx, TRS.get, getGo, Rule.is_empty, Ex.trsOne, Ex.ruleAB,
      Ex.ruleDE, Ex.cA, Ex.cB, Ex.cD, Ex.cE, List.filter]

/-- Claim C3 as amended: the single-step mutations insert_idx,
insert_clauses, insert, remove_idx, remove, remove_clauses and push
leave the TRS exactly as it was whenever they return an error, while
move_rule, pushes, inserts_idx and replace may mutate before failing. -/
theorem claim3_theorem :
    (∀ (trs : TRS) (idx : Nat) (rule : Rule) (e : TRSError),
      (trs.insert_idx idx rule).2 = some e → (trs.insert_idx idx rule).1 = trs) ∧
    (∀ (trs : TRS) (rule : Rule) (e : TRSError),
      (trs.insert_clauses rule).2 = some e → (trs.insert_clauses rule).1 = trs) ∧
    (∀ (trs : TRS) (idx : Nat) (rule : Rule) (e : TRSError),
      (trs.insert idx rule).2 = some e → (trs.insert idx rule).1 = trs) ∧
    (∀ (trs : TRS) (idx : Nat) (e : TRSError),
      (trs.remove_idx idx).2 = .error e → (trs.remove_idx idx).1 = trs) ∧
    (∀ (trs : TRS) (lhs : Term) (e : TRSError),
      (trs.remove lhs).2 = .error e → (trs.remove lhs).1 = trs) ∧
    (∀ (trs : TRS) (rule : Rule) (e : TRSError),
      (trs.remove_clauses rule).2 = .error e → (trs.remove_clauses rule).1 = trs) ∧
    (∀ (trs : TRS) (rule : Rule) (e : TRSError),
      (trs.push rule).2 = some e → (trs.push rule).1 = trs) := by
  refine ⟨?_, ?_, ?_, ?_, ?_, ?_, ?_⟩
  · intro trs idx rule e h
    exact insert_idx_unchanged trs idx rule (by rw [h]; rfl)
  · intro trs rule e h
    exact insert_clauses_unchanged trs rule (by rw [h]; rfl)
  · intro trs idx rule e h
    exact insert_unchanged trs idx rule (by rw [h]; rfl)
  · intro trs idx e h
    exact remove_idx_unchanged trs idx e h
  · intro trs lhs e h
    exact remove_unchanged trs lhs e h
  · intro trs rule e h
    exact remove_clauses_unchanged trs rule e h
  · intro trs rule e h
    exact push_unchanged trs rule (by rw [h]; rfl)

/-- Witness for the C3 theorem: inserting a two-clause rule into the
empty deterministic TRS fails with NondeterministicRule and leaves the
TRS unchanged. -/
theorem claim3_witness :
    (Ex.trsDet.insert_idx 0 Ex.ruleAB2).1 = Ex.trsDet :=
  claim3_theorem.1 Ex.trsDet 0 Ex.ruleAB2 .nondeterministicRule (by decide)


theorem mapLookup_mem {M : List (Nat × Nat)} {k n : Nat}
    (h : mapLookup M k = some n) : (k, n) ∈ M := by
  induction M with
  | nil => simp [mapLookup] at h
  | cons p rest ih =>
    obtain ⟨a, b⟩ := p
    rw [mapLookup] at h
    split at h
    · rename_i hk
      simp only [Option.some.injEq] at h
      subst hk
      subst h
      exact List.mem_cons_self _ _
    · exact List.mem_cons_of_mem _ (ih h)

theorem mapLookup_isSome_of_mem {M : List (Nat × Nat)} {k n : Nat}
    (h : (k, n) ∈ M) : (mapLookup M k).isSome := by
  induction M with
  | nil => simp at h
  | cons p rest ih =>
    obtain ⟨a, b⟩ := p
    rw [mapLookup]
    split
    · simp
    · rename_i hk
      rcases List.mem_cons.mp h with h1 | h1
      · simp only [Prod.mk.injEq] at h1
        exact absurd h1.1.symm hk
      · exact ih h1

theorem mapLookup_eq_none_iff {M : List (Nat × Nat)} {k : Nat} :
    mapLookup M k = none ↔ k ∉ M.map Prod.fst := by
  constructor
  · intro h hk
    obtain ⟨p, hp, hp1⟩ := List.mem_map.mp hk
    obtain ⟨a, b⟩ := p
    simp only at hp1
    subst hp1
    have := mapLookup_isSome_of_mem hp
    rw [h] at this
    simp at this
  · intro hk
    cases hm : mapLookup M k with
    | none => rfl
    | some n =>
      exact absurd (List.mem_map.mpr ⟨(k, n), mapLookup_mem hm, rfl⟩) hk

theorem mapLookup_append_left {M ext : List (Nat × Nat)} {k : Nat}
    (h : (mapLookup M k).isSome) : mapLookup (M ++ ext) k = mapLookup M k := by
  induction M with
  | nil => simp [mapLookup] at h
  | cons p rest ih =>
    obtain ⟨a, b⟩ := p
    rw [List.cons_append, mapLookup, mapLookup]
    split
    · rfl
    · rename_i hk
      rw [mapLookup] at h
      rw [if_neg hk] at h
      exact ih h

theorem mapLookup_append_of_none {M ext : List (Nat × Nat)} {k : Nat}
    (h : mapLookup M k = none) : mapLookup (M ++ ext) k = mapLookup ext k := by
  induction M with
  | nil => simp
  | cons p rest ih =>
    obtain ⟨a, b⟩ := p
    rw [mapLookup] at h
    rw [List.cons_append, mapLookup]
    split at h
    · simp at h
    · rename_i hk
      rw [if_neg hk]
      exact ih h

theorem renameVar_inj {M : List (Nat × Nat)} {a c : Nat}
    (hv : (M.map Prod.snd).Nodup)
    (ha : (mapLookup M a).isSome) (hc : (mapLookup M c).isSome)
    (h : renameVar M a = renameVar M c) : a = c := by
  obtain ⟨x, hx⟩ := Option.isSome_iff_exists.mp ha
  obtain ⟨y, hy⟩ := Option.isSome_iff_exists.mp hc
  unfold renameVar at h
  rw [hx, hy] at h
  simp only [Option.getD_some] at h
  subst h
  have hma := mapLookup_mem hx
  have hmc := mapLookup_mem hy
  have := List.inj_on_of_nodup_map hv hma hmc rfl
  simpa using congrArg Prod.fst this

theorem renameVarsArgs_eq_map (M : List (Nat × Nat)) (ts : List Term) :
    renameVarsArgs M ts = ts.map (renameVarsT M) := by
  induction ts with
  | nil => rw [renameVarsArgs]; rfl
  | cons t rest ih => rw [renameVarsArgs, ih]; rfl

mutual

theorem renameVarsT_append : ∀ (M ext : List (Nat × Nat)) (t : Term),
    (∀ v ∈ t.varIds, (mapLookup M v).isSome) →
    renameVarsT (M ++ ext) t = renameVarsT M t
  | M, ext, .var v => by
    intro h
    have hv := h v.id (by simp [Term.varIds])
    rw [renameVarsT, renameVarsT]
    unfold renameVar
    rw [mapLookup_append_left hv]
  | M, ext, .app op args => by
    intro h
    rw [renameVarsT, renameVarsT, renameVarsArgs_append M ext args (by
      intro v hv
      exact h v (by simpa [Term.varIds] using hv))]

theorem renameVarsArgs_append : ∀ (M ext : List (Nat × Nat)) (ts : List Term),
    (∀ v ∈ Term.varIdsArgs ts, (mapLookup M v).isSome) →
    renameVarsArgs (M ++ ext) ts = renameVarsArgs M ts
  | M, ext, [] => by
    intro _
    rw [renameVarsArgs, renameVarsArgs]
  | M, ext, t :: ts => by
    intro h
    rw [renameVarsArgs, renameVarsArgs,
      renameVarsT_append M ext t (by
        intro v hv
        exact h v (by rw [Term.varIdsArgs]; exact List.mem_append_left _ hv)),
      renameVarsArgs_append M ext ts (by
        intro v hv
        exact h v (by rw [Term.varIdsArgs]; exact List.mem_append_right _ hv))]

end

theorem varIds_mem_args {t : Term} {ts : List Term} (ht : t ∈ ts) :
    ∀ v ∈ t.varIds, v ∈ Term.varIdsArgs ts := by
  induction ts with
  | nil => simp at ht
  | cons a rest ih =>
    intro v hv
    rw [Term.varIdsArgs]
    rcases List.mem_cons.mp ht with h | h
    · subst h
      exact List.mem_append_left _ hv
    · exact List.mem_append_right _ (ih h v hv)

theorem zip_map_pair (f : Term → Term) (as bs : List Term) :
    (as.map f).zip (bs.map f) = (as.zip bs).map fun p => (f p.1, f p.2) := by
  induction as generalizing bs with
  | nil => simp
  | cons a rest ih =>
    cases bs with
    | nil => simp
    | cons b brest => simp [ih]

theorem alphaGo_rename_reflect {M : List (Nat × Nat)}
    (hv : (M.map Prod.snd).Nodup) :
    ∀ (m2 : List (Nat × Nat)) (ps : List (Term × Term)),
      (∀ q ∈ m2, (mapLookup M q.1).isSome ∧ (mapLookup M q.2).isSome) →
      (∀ p ∈ ps, (∀ v ∈ p.1.varIds, (mapLookup M v).isSome) ∧
        (∀ v ∈ p.2.varIds, (mapLookup M v).isSome)) →
      (alphaGo (m2.map fun q => (renameVar M q.1, renameVar M q.2))
        (ps.map fun p => (renameVarsT M p.1, renameVarsT M p.2))).isSome →
      (alphaGo m2 ps).isSome := by
  intro m2 ps
  induction m2, ps using alphaGo.induct with
  | case1 m => intro _ _ _; simp [alphaGo]
  | case2 m a b rest hmem ih =>
    intro hm hp hs
    simp only [List.map_cons, renameVarsT] at hs
    rw [alphaGo, if_pos (show ((renameVar M a.id, renameVar M b.id)) ∈
        m.map (fun q => (renameVar M q.1, renameVar M q.2)) from
      List.mem_map.mpr ⟨(a.id, b.id), hmem, rfl⟩)] at hs
    rw [alphaGo, if_pos hmem]
    exact ih hm (fun p hq => hp p (List.mem_cons_of_mem _ hq)) hs
  | case3 m a b rest hmem hex =>
    intro hm hp hs
    exfalso
    have hca : (mapLookup M a.id).isSome :=
      (hp _ (List.mem_cons_self _ _)).1 a.id (by simp [Term.varIds])
    have hcb : (mapLookup M b.id).isSome :=
      (hp _ (List.mem_cons_self _ _)).2 b.id (by simp [Term.varIds])
    simp only [List.map_cons, renameVarsT] at hs
    rw [alphaGo] at hs
    rw [if_neg (show ¬((renameVar M a.id, renameVar M b.id)) ∈
        m.map (fun q => (renameVar M q.1, renameVar M q.2)) from by
      intro hmm
      obtain ⟨q, hq, hqe⟩ := List.mem_map.mp hmm
      simp only [Prod.mk.injEq] at hqe
      have h1 := renameVar_inj hv (hm q hq).1 hca hqe.1
      have h2 := renameVar_inj hv (hm q hq).2 hcb hqe.2
      apply hmem
      have : q = (a.id, b.id) := by
        obtain ⟨q1, q2⟩ := q
        simp only at h1 h2
        rw [h1, h2]
      exact this ▸ hq)] at hs
    rw [if_pos (show (∃ p ∈ m.map (fun q => (renameVar M q.1, renameVar M q.2)),
          p.1 = renameVar M a.id) ∨
        (∃ p ∈ m.map (fun q => (renameVar M q.1, renameVar M q.2)),
          p.2 = renameVar M b.id) from by
      rcases hex with ⟨p, hpm, hp1⟩ | ⟨p, hpm, hp2⟩
      · exact Or.inl ⟨(renameVar M p.1, renameVar M p.2),
          List.mem_map.mpr ⟨p, hpm, rfl⟩, by rw [hp1]⟩
      · exact Or.inr ⟨(renameVar M p.1, renameVar M p.2),
          List.mem_map.mpr ⟨p, hpm, rfl⟩, by rw [hp2]⟩)] at hs
    simp at hs
  | case4 m a b rest hmem hex ih =>
    intro hm hp hs
    have hca : (mapLookup M a.id).isSome :=
      (hp _ (List.mem_cons_self _ _)).1 a.id (by simp [Term.varIds])
    have hcb : (mapLookup M b.id).isSome :=
      (hp _ (List.mem_cons_self _ _)).2 b.id (by simp [Term.varIds])
    simp only [List.map_cons, renameVarsT] at hs
    rw [alphaGo] at hs
    rw [if_neg (show ¬((renameVar M a.id, renameVar M b.id)) ∈
        m.map (fun q => (renameVar M q.1, renameVar M q.2)) from by
      intro hmm
      obtain ⟨q, hq, hqe⟩ := List.mem_map.mp hmm
      simp only [Prod.mk.injEq] at hqe
      have h1 := renameVar_inj hv (hm q hq).1 hca hqe.1
      have h2 := renameVar_inj hv (hm q hq).2 hcb hqe.2
      apply hmem
      have : q = (a.id, b.id) := by
        obtain ⟨q1, q2⟩ := q
        simp only at h1 h2
        rw [h1, h2]
      exact this ▸ hq)] at hs
    rw [if_neg (show ¬((∃ p ∈ m.map (fun q => (renameVar M q.1, renameVar M q.2)),
          p.1 = renameVar M a.id) ∨
        (∃ p ∈ m.map (fun q => (renameVar M q.1, renameVar M q.2)),
          p.2 = renameVar M b.id)) from by
      rintro (⟨p, hpm, hp1⟩ | ⟨p, hpm, hp2⟩)
      · obtain ⟨q, hq, hqe⟩ := List.mem_map.mp hpm
        apply hex
        refine Or.inl ⟨q, hq, ?_⟩
        have : renameVar M q.1 = renameVar M a.id := by
          rw [← hp1, ← hqe]
        exact renameVar_inj hv (hm q hq).1 hca this
      · obtain ⟨q, hq, hqe⟩ := List.mem_map.mp hpm
        apply hex
        refine Or.inr ⟨q, hq, ?_⟩
        have : renameVar M q.2 = renameVar M b.id := by
          rw [← hp2, ← hqe]
        exact renameVar_inj hv (hm q hq).2 hcb this)] at hs
    rw [alphaGo, if_neg hmem, if_neg hex]
    refine ih ?_ (fun p hq => hp p (List.mem_cons_of_mem _ hq)) hs
    intro q hq
    rcases List.mem_cons.mp hq with h | h
    · rw [h]
      exact ⟨hca, hcb⟩
    · exact hm q h
  | case5 m f as g bs rest h ih =>
    intro hm hp hs
    simp only [List.map_cons, renameVarsT] at hs
    rw [alphaGo] at hs
    rw [dif_pos (show f = g ∧ (renameVarsArgs M as).length = (renameVarsArgs M bs).length from
      ⟨h.1, by rw [renameVarsArgs_eq_map, renameVarsArgs_eq_map,
        List.length_map, List.length_map, h.2]⟩)] at hs
    rw [renameVarsArgs_eq_map, renameVarsArgs_eq_map, zip_map_pair,
      ← List.map_append] at hs
    rw [alphaGo, dif_pos h]
    have hcov1 : ∀ v ∈ Term.varIdsArgs as, (mapLookup M v).isSome := by
      have := (hp _ (List.mem_cons_self _ _)).1
      intro v hvv
      exact this v (by rw [Term.varIds]; exact hvv)
    have hcov2 : ∀ v ∈ Term.varIdsArgs bs, (mapLookup M v).isSome := by
      have := (hp _ (List.mem_cons_self _ _)).2
      intro v hvv
      exact this v (by rw [Term.varIds]; exact hvv)
    refine ih hm ?_ hs
    intro p hq
    rcases List.mem_append.mp hq with h1 | h1
    · obtain ⟨hz1, hz2⟩ := List.mem_zip h1
      exact ⟨fun v hvv => hcov1 v (varIds_mem_args hz1 v hvv),
        fun v hvv => hcov2 v (varIds_mem_args hz2 v hvv)⟩
    · exact hp p (List.mem_cons_of_mem _ h1)
  | case6 m f as g bs rest h =>
    intro hm hp hs
    exfalso
    simp only [List.map_cons, renameVarsT] at hs
    rw [alphaGo] at hs
    rw [dif_neg (show ¬(f = g ∧ (renameVarsArgs M as).length = (renameVarsArgs M bs).length) from by
      intro hcon
      exact h ⟨hcon.1, by
        have := hcon.2
        rw [renameVarsArgs_eq_map, renameVarsArgs_eq_map,
          List.length_map, List.length_map] at this
        exact this⟩)] at hs
    simp at hs
  | case7 m v f args rest =>
    intro hm hp hs
    exfalso
    simp only [List.map_cons, renameVarsT] at hs
    rw [alphaGo] at hs
    simp at hs
  | case8 m f args v rest =>
    intro hm hp hs
    exfalso
    simp only [List.map_cons, renameVarsT] at hs
    rw [alphaGo] at hs
    simp at hs

theorem alpha_rename_reflect {M : List (Nat × Nat)} {t1 t2 : Term}
    (hv : (M.map Prod.snd).Nodup)
    (hc1 : ∀ v ∈ t1.varIds, (mapLookup M v).isSome)
    (hc2 : ∀ v ∈ t2.varIds, (mapLookup M v).isSome)
    (hs : (Term.alpha [(renameVarsT M t1, renameVarsT M t2)]).isSome) :
    (Term.alpha [(t1, t2)]).isSome := by
  refine alphaGo_rename_reflect hv [] [(t1, t2)] (by simp) ?_ hs
  intro p hq
  rcases List.mem_singleton.mp hq with rfl
  exact ⟨hc1, hc2⟩

mutual

theorem canonTerm_spec : ∀ (m : List (Nat × Nat)) (t : Term), GoodMap m →
    GoodMap (canonTerm m t).2 ∧ (∃ ext, (canonTerm m t).2 = m ++ ext) ∧
    (∀ v ∈ t.varIds, (mapLookup (canonTerm m t).2 v).isSome) ∧
    (canonTerm m t).1 = renameVarsT (canonTerm m t).2 t
  | m, .var v => by
    intro hm
    cases hml : mapLookup m v.id with
    | some n =>
      have heq : canonTerm m (.var v) = (.var ⟨n⟩, m) := by
        rw [canonTerm, hml]
      rw [heq]
      refine ⟨hm, ⟨[], by simp⟩, ?_, ?_⟩
      · intro x hx
        rw [Term.varIds] at hx
        rcases List.mem_singleton.mp hx with rfl
        rw [hml]
        rfl
      · rw [renameVarsT]
        unfold renameVar
        rw [hml]
        rfl
    | none =>
      have heq : canonTerm m (.var v) = (.var ⟨m.length⟩, m ++ [(v.id, m.length)]) := by
        rw [canonTerm, hml]
      have hlook : mapLookup (m ++ [(v.id, m.length)]) v.id = some m.length := by
        rw [mapLookup_append_of_none hml, mapLookup]
        simp
      rw [heq]
      refine ⟨⟨?_, ?_, ?_⟩, ⟨[(v.id, m.length)], rfl⟩, ?_, ?_⟩
      · rw [List.map_append]
        simp only [List.map_cons, List.map_nil]
        rw [List.nodup_append]
        refine ⟨hm.1, List.nodup_singleton _, ?_⟩
        intro x hx hx1
        rcases List.mem_singleton.mp hx1 with rfl
        exact (mapLookup_eq_none_iff.mp hml) hx
      · rw [List.map_append]
        simp only [List.map_cons, List.map_nil]
        rw [List.nodup_append]
        refine ⟨hm.2.1, List.nodup_singleton _, ?_⟩
        intro x hx hx1
        rcases List.mem_singleton.mp hx1 with rfl
        obtain ⟨p, hp, hp2⟩ := List.mem_map.mp hx
        have := hm.2.2 p hp
        omega
      · intro p hp
        rw [List.length_append, List.length_cons, List.length_nil]
        rcases List.mem_append.mp hp with h1 | h1
        · have := hm.2.2 p h1
          omega
        · rcases List.mem_singleton.mp h1 with rfl
          simp
      · intro x hx
        rw [Term.varIds] at hx
        rcases List.mem_singleton.mp hx with rfl
        rw [hlook]
        rfl
      · rw [renameVarsT]
        unfold renameVar
        rw [hlook]
        rfl
  | m, .app op args => by
    intro hm
    have heq : canonTerm m (.app op args) =
        (.app op (canonArgs m args).1, (canonArgs m args).2) := by
      rw [canonTerm]
    obtain ⟨hg, hext, hcov, hren, _⟩ := canonArgs_spec m args hm
    rw [heq]
    refine ⟨hg, hext, ?_, ?_⟩
    · intro v hv
      rw [Term.varIds] at hv
      exact hcov v hv
    · rw [renameVarsT, hren]

theorem canonArgs_spec : ∀ (m : List (Nat × Nat)) (ts : List Term), GoodMap m →
    GoodMap (canonArgs m ts).2 ∧ (∃ ext, (canonArgs m ts).2 = m ++ ext) ∧
    (∀ v ∈ Term.varIdsArgs ts, (mapLookup (canonArgs m ts).2 v).isSome) ∧
    (canonArgs m ts).1 = renameVarsArgs (canonArgs m ts).2 ts ∧
    (canonArgs m ts).1.length = ts.length
  | m, [] => by
    intro hm
    have heq : canonArgs m ([] : List Term) = ([], m) := by rw [canonArgs]
    rw [heq]
    exact ⟨hm, ⟨[], by simp⟩, by simp [Term.varIdsArgs], by rw [renameVarsArgs], rfl⟩
  | m, t :: ts => by
    intro hm
    have heq : canonArgs m (t :: ts) =
        ((canonTerm m t).1 :: (canonArgs (canonTerm m t).2 ts).1,
          (canonArgs (canonTerm m t).2 ts).2) := by
      rw [canonArgs]
    obtain ⟨hg1, ⟨e1, he1⟩, hcov1, hren1⟩ := canonTerm_spec m t hm
    obtain ⟨hg2, ⟨e2, he2⟩, hcov2, hren2, hlen2⟩ := canonArgs_spec (canonTerm m t).2 ts hg1
    rw [heq]
    refine ⟨hg2, ⟨e1 ++ e2, by rw [he2, he1, List.append_assoc]⟩, ?_, ?_, ?_⟩
    · intro v hv
      rw [Term.varIdsArgs] at hv
      rcases List.mem_append.mp hv with h1 | h1
      · rw [he2, mapLookup_append_left (hcov1 v h1)]
        exact hcov1 v h1
      · exact hcov2 v h1
    · show (canonTerm m t).1 :: (canonArgs (canonTerm m t).2 ts).1 =
        renameVarsArgs (canonArgs (canonTerm m t).2 ts).2 (t :: ts)
      rw [renameVarsArgs, ← hren2]
      congr 1
      rw [he2, renameVarsT_append _ _ _ hcov1]
      exact hren1
    · show ((canonTerm m t).1 :: (canonArgs (canonTerm m t).2 ts).1).length = (t :: ts).length
      rw [List.length_cons, List.length_cons, hlen2]

end

theorem canonRules_spec : ∀ (m : List (Nat × Nat)) (rules : List Rule), GoodMap m →
    GoodMap (canonRules m rules).2 ∧
    (∃ ext, (canonRules m rules).2 = m ++ ext) ∧
    ((canonRules m rules).1.map Rule.lhs =
      rules.map fun r => renameVarsT (canonRules m rules).2 r.lhs) ∧
    (∀ r ∈ rules, ∀ v ∈ r.lhs.varIds, (mapLookup (canonRules m rules).2 v).isSome) ∧
    ((canonRules m rules).1.map fun r => r.rhs.length) =
      (rules.map fun r => r.rhs.length) := by
  intro m rules
  induction rules generalizing m with
  | nil =>
    intro hm
    have heq : canonRules m [] = ([], m) := by rw [canonRules]
    rw [heq]
    exact ⟨hm, ⟨[], by simp⟩, by simp, by simp, by simp⟩
  | cons r rest ih =>
    intro hm
    have heq : canonRules m (r :: rest) =
        ((r.canonicalize m).1 :: (canonRules (r.canonicalize m).2 rest).1,
          (canonRules (r.canonicalize m).2 rest).2) := by
      rw [canonRules]
    have hrc : r.canonicalize m =
        (⟨(canonTerm m r.lhs).1, (canonArgs (canonTerm m r.lhs).2 r.rhs).1⟩,
          (canonArgs (canonTerm m r.lhs).2 r.rhs).2) := by
      rw [Rule.canonicalize]
    obtain ⟨hg1, ⟨e1, he1⟩, hcov1, hren1⟩ := canonTerm_spec m r.lhs hm
    obtain ⟨hg2, ⟨e2, he2⟩, _, _, hlen2⟩ :=
      canonArgs_spec (canonTerm m r.lhs).2 r.rhs hg1
    obtain ⟨hg3, ⟨e3, he3⟩, hlhs3, hcov3, hlen3⟩ :=
      ih (canonArgs (canonTerm m r.lhs).2 r.rhs).2 hg2
    rw [heq, hrc]
    have hfin : (canonRules (canonArgs (canonTerm m r.lhs).2 r.rhs).2 rest).2 =
        (canonTerm m r.lhs).2 ++ (e2 ++ e3) := by
      rw [he3, he2, List.append_assoc]
    refine ⟨hg3, ⟨e1 ++ (e2 ++ e3), by rw [hfin, he1, List.append_assoc]⟩, ?_, ?_, ?_⟩
    · rw [List.map_cons, List.map_cons, hlhs3]
      congr 1
      show (canonTerm m r.lhs).1 = _
      rw [hfin, renameVarsT_append _ _ _ hcov1]
      exact hren1
    · intro x hx
      rcases List.mem_cons.mp hx with h1 | h1
      · subst h1
        intro v hvv
        rw [hfin, mapLookup_append_left (hcov1 v hvv)]
        exact hcov1 v hvv
      · exact hcov3 x h1
    · rw [List.map_cons, List.map_cons, hlen3]
      congr 1

theorem zip_swap (as : List Term) : ∀ bs : List Term,
    (as.zip bs).map (fun p => (p.2, p.1)) = bs.zip as := by
  induction as with
  | nil => intro bs; simp
  | cons a rest ih =>
    intro bs
    cases bs with
    | nil => simp
    | cons b brest => simp [ih]

theorem alphaGo_swap : ∀ (m : List (Nat × Nat)) (ps : List (Term × Term)),
    (alphaGo m ps).isSome →
    (alphaGo (m.map fun q => (q.2, q.1)) (ps.map fun p => (p.2, p.1))).isSome := by
  intro m ps
  induction m, ps using alphaGo.induct with
  | case1 m => intro _; simp [alphaGo]
  | case2 m a b rest hmem ih =>
    intro hs
    rw [alphaGo, if_pos hmem] at hs
    simp only [List.map_cons]
    rw [alphaGo, if_pos (show ((b.id, a.id)) ∈ m.map (fun q => (q.2, q.1)) from
      List.mem_map.mpr ⟨(a.id, b.id), hmem, rfl⟩)]
    exact ih hs
  | case3 m a b rest hmem hex =>
    intro hs
    rw [alphaGo, if_neg hmem, if_pos hex] at hs
    simp at hs
  | case4 m a b rest hmem hex ih =>
    intro hs
    rw [alphaGo, if_neg hmem, if_neg hex] at hs
    simp only [List.map_cons]
    rw [alphaGo]
    rw [if_neg (show ¬((b.id, a.id)) ∈ m.map (fun q => (q.2, q.1)) from by
      intro hmm
      obtain ⟨q, hq, hqe⟩ := List.mem_map.mp hmm
      simp only [Prod.mk.injEq] at hqe
      apply hmem
      have : q = (a.id, b.id) := by
        obtain ⟨q1, q2⟩ := q
        simp only at hqe
        rw [hqe.1, hqe.2]
      exact this ▸ hq)]
    rw [if_neg (show ¬((∃ p ∈ m.map (fun q => (q.2, q.1)), p.1 = b.id) ∨
        (∃ p ∈ m.map (fun q => (q.2, q.1)), p.2 = a.id)) from by
      rintro (⟨p, hpm, hp1⟩ | ⟨p, hpm, hp2⟩)
      · obtain ⟨q, hq, hqe⟩ := List.mem_map.mp hpm
        apply hex
        refine Or.inr ⟨q, hq, ?_⟩
        rw [← hqe] at hp1
        exact hp1
      · obtain ⟨q, hq, hqe⟩ := List.mem_map.mp hpm
        apply hex
        refine Or.inl ⟨q, hq, ?_⟩
        rw [← hqe] at hp2
        exact hp2)]
    exact ih hs
  | case5 m f as g bs rest h ih =>
    intro hs
    rw [alphaGo, dif_pos h] at hs
    simp only [List.map_cons]
    rw [alphaGo, dif_pos (show g = f ∧ bs.length = as.length from ⟨h.1.symm, h.2.symm⟩)]
    have := ih hs
    rw [List.map_append, zip_swap] at this
    exact this
  | case6 m f as g bs rest h =>
    intro hs
    rw [alphaGo, dif_neg h] at hs
    simp at hs
  | case7 m v f args rest =>
    intro hs
    rw [alphaGo] at hs
    simp at hs
  | case8 m f args v rest =>
    intro hs
    rw [alphaGo] at hs
    simp at hs

theorem alpha_symm {t1 t2 : Term} (h : (Term.alpha [(t1, t2)]).isSome) :
    (Term.alpha [(t2, t1)]).isSome := by
  have := alphaGo_swap [] [(t1, t2)] h
  simpa using this

theorem getGo_none {rules : List Rule} {lhs : Term} :
    ∀ {i : Nat}, getGo rules i lhs = none →
      ∀ r ∈ rules, ¬(Term.alpha [(lhs, r.lhs)]).isSome := by
  induction rules with
  | nil => intro i _ r hr; simp at hr
  | cons r0 rest ih =>
    intro i h r hr
    rw [getGo] at h
    split at h
    · simp at h
    · rename_i h0
      rcases List.mem_cons.mp hr with h1 | h1
      · subst h1
        exact h0
      · exact ih h r h1

theorem set_self_of_getElem {α : Type} {l : List α} :
    ∀ {i : Nat} {a : α}, l[i]? = some a → l.set i a = l := by
  induction l with
  | nil => intro i a h; simp at h
  | cons x rest ih =>
    intro i a h
    cases i with
    | zero =>
      simp only [List.getElem?_cons_zero, Option.some.injEq] at h
      subst h
      rfl
    | succ j =>
      simp only [List.getElem?_cons_succ] at h
      rw [List.set_cons_succ, ih h]

theorem pairwise_take_cons_drop {α : Type} {R : α → α → Prop} {l : List α} {idx : Nat}
    {r : α} (hl : l.Pairwise R) (h1 : ∀ x ∈ l, R x r) (h2 : ∀ x ∈ l, R r x) :
    (l.take idx ++ r :: l.drop idx).Pairwise R := by
  have hsplit : l = l.take idx ++ l.drop idx := (List.take_append_drop idx l).symm
  rw [List.pairwise_append]
  have hl2 : (l.take idx ++ l.drop idx).Pairwise R := by rw [← hsplit]; exact hl
  rw [List.pairwise_append] at hl2
  refine ⟨hl2.1, ?_, ?_⟩
  · rw [List.pairwise_cons]
    refine ⟨fun y hy => h2 y (by rw [hsplit]; exact List.mem_append_right _ hy), hl2.2.1⟩
  · intro x hx y hy
    rcases List.mem_cons.mp hy with h3 | h3
    · subst h3
      exact h1 x (by rw [hsplit]; exact List.mem_append_left _ hx)
    · exact hl2.2.2 x hx y h3

theorem pairwise_lhs_transport {l1 l2 : List Rule}
    (he : l1.map Rule.lhs = l2.map Rule.lhs)
    (h : l2.Pairwise fun r1 r2 => ¬(Term.alpha [(r1.lhs, r2.lhs)]).isSome) :
    l1.Pairwise fun r1 r2 => ¬(Term.alpha [(r1.lhs, r2.lhs)]).isSome := by
  have h2 : (l2.map Rule.lhs).Pairwise (fun a b => ¬(Term.alpha [(a, b)]).isSome) :=
    List.pairwise_map.mpr h
  rw [← he] at h2
  exact List.pairwise_map.mp h2

theorem mem_of_getElem2 {α : Type} {l : List α} :
    ∀ {i : Nat} {a : α}, l[i]? = some a → a ∈ l := by
  induction l with
  | nil => intro i a h; simp at h
  | cons x rest ih =>
    intro i a h
    cases i with
    | zero =>
      simp only [List.getElem?_cons_zero, Option.some.injEq] at h
      subst h
      exact List.mem_cons_self _ _
    | succ j =>
      simp only [List.getElem?_cons_succ] at h
      exact List.mem_cons_of_mem _ (ih h)

theorem merge_rhs_ne {r other : Rule} (h : r.rhs ≠ []) : (r.merge other).rhs ≠ [] := by
  unfold Rule.merge
  split
  · simp only
    intro hcon
    rw [List.append_eq_nil] at hcon
    exact h hcon.1
  · exact h

theorem Rule.wf_rhs_ne {r : Rule} (h : r.wf) : r.rhs ≠ [] := by
  have hb := h
  unfold Rule.wf Rule.wfb at hb
  simp only [Bool.and_eq_true, Bool.not_eq_true'] at hb
  intro hcon
  rw [hcon] at hb
  simp at hb

theorem inv_insert_idx (trs : TRS) (idx : Nat) (rule : Rule)
    (hinv : TRSInv trs) (hr : rule.rhs ≠ []) : TRSInv (trs.insert_idx idx rule).1 := by
  obtain ⟨hne, hdet, hpw⟩ := hinv
  unfold TRS.insert_idx
  split
  · exact ⟨hne, hdet, hpw⟩
  · split
    · exact ⟨hne, hdet, hpw⟩
    · split
      · exact ⟨hne, hdet, hpw⟩
      · rename_i h1 h2 h3
        have hnone : trs.get rule.lhs = none := by
          cases hgg : trs.get rule.lhs with
          | none => rfl
          | some p => rw [hgg] at h3; simp at h3
        have hno := getGo_none (hnone : getGo trs.rules 0 rule.lhs = none)
        have hmem : ∀ x, x ∈ insertAt trs.rules idx rule → x = rule ∨ x ∈ trs.rules := by
          intro x hx
          unfold insertAt at hx
          rcases List.mem_append.mp hx with hx1 | hx1
          · exact Or.inr (List.mem_of_mem_take hx1)
          · rcases List.mem_cons.mp hx1 with hx2 | hx2
            · exact Or.inl hx2
            · exact Or.inr (List.mem_of_mem_drop hx2)
        refine ⟨?_, ?_, ?_⟩
        · intro x hx
          rcases hmem x hx with h4 | h4
          · subst h4; exact hr
          · exact hne x h4
        · intro hd x hx
          rcases hmem x hx with h4 | h4
          · subst h4
            have hle : ¬(x.len > 1) := fun hh => h1 ⟨hd, hh⟩
            have hpos : 0 < x.rhs.length := List.length_pos.mpr hr
            unfold Rule.len at hle
            omega
          · exact hdet hd x h4
        · show (insertAt trs.rules idx rule).Pairwise _
          unfold insertAt
          refine pairwise_take_cons_drop hpw ?_ ?_
          · intro x hx hcon
            exact hno x hx (alpha_symm hcon)
          · intro x hx
            exact hno x hx

theorem inv_insert_clauses (trs : TRS) (rule : Rule)
    (hinv : TRSInv trs) : TRSInv (trs.insert_clauses rule).1 := by
  obtain ⟨hne, hdet, hpw⟩ := hinv
  unfold TRS.insert_clauses
  split
  · exact ⟨hne, hdet, hpw⟩
  · rename_i hdetf
    split
    · rename_i i r hget
      have hri : trs.rules[i]? = some r := by
        have := getGo_some (hget : getGo trs.rules 0 rule.lhs = some (i, r))
        simpa using this.2.2.1
      have hrmem : r ∈ trs.rules := mem_of_getElem2 hri
      have hmape : (trs.rules.set i (r.merge rule)).map Rule.lhs = trs.rules.map Rule.lhs := by
        rw [List.map_set]
        apply set_self_of_getElem
        rw [List.getElem?_map, hri]
        simp [merge_lhs]
      refine ⟨?_, ?_, ?_⟩
      · intro x hx
        rcases List.mem_or_eq_of_mem_set hx with h4 | h4
        · exact hne x h4
        · subst h4
          exact merge_rhs_ne (hne r hrmem)
      · intro hd
        exact absurd hd (by simpa using hdetf)
      · exact pairwise_lhs_transport hmape hpw
    · exact ⟨hne, hdet, hpw⟩

theorem insert_result_cases (trs : TRS) (idx : Nat) (rule : Rule) :
    (trs.insert idx rule).1 = (trs.insert_clauses rule).1 ∨
    (trs.insert idx rule).1 = (trs.insert_idx idx rule).1 := by
  rcases hcl : trs.insert_clauses rule with ⟨t2, ec⟩
  cases ec with
  | none =>
    left
    rw [insert_eq_of_clauses_ok idx hcl]
  | some e =>
    rw [insert_eq_of_clauses_err idx hcl]
    right
    rfl

theorem inv_insert (trs : TRS) (idx : Nat) (rule : Rule)
    (hinv : TRSInv trs) (hr : rule.rhs ≠ []) : TRSInv (trs.insert idx rule).1 := by
  rcases insert_result_cases trs idx rule with h | h
  · rw [h]
    exact inv_insert_clauses trs rule hinv
  · rw [h]
    exact inv_insert_idx trs idx rule hinv hr

theorem inv_remove_idx (trs : TRS) (idx : Nat) (hinv : TRSInv trs) :
    TRSInv (trs.remove_idx idx).1 := by
  obtain ⟨hne, hdet, hpw⟩ := hinv
  unfold TRS.remove_idx
  split
  · have hsub : List.Sublist (trs.rules.eraseIdx idx) trs.rules := List.eraseIdx_sublist _ _
    exact ⟨fun x hx => hne x (hsub.mem hx), fun hd x hx => hdet hd x (hsub.mem hx),
      hpw.sublist hsub⟩
  · exact ⟨hne, hdet, hpw⟩

theorem inv_remove (trs : TRS) (lhs : Term) (hinv : TRSInv trs) :
    TRSInv (trs.remove lhs).1 := by
  obtain ⟨hne, hdet, hpw⟩ := hinv
  unfold TRS.remove
  split
  · rename_i i r hget
    have hsub : List.Sublist (trs.rules.eraseIdx i) trs.rules := List.eraseIdx_sublist _ _
    exact ⟨fun x hx => hne x (hsub.mem hx), fun hd x hx => hdet hd x (hsub.mem hx),
      hpw.sublist hsub⟩
  · exact ⟨hne, hdet, hpw⟩

theorem discard_spec {r other r2 d : Rule} (h : r.discard other = some (r2, d)) :
    r2.lhs = r.lhs ∧ r2.rhs.length ≤ r.rhs.length := by
  simp only [Rule.discard] at h
  split at h
  · simp at h
  · simp only [Option.some.injEq, Prod.mk.injEq] at h
    rw [← h.1]
    exact ⟨rfl, List.length_filter_le _ _⟩

theorem discardFirst_spec {other : Rule} : ∀ {rules rules2 : List Rule} {d : Rule},
    discardFirst other rules = some (rules2, d) →
    rules2.map Rule.lhs = rules.map Rule.lhs ∧
    ∀ x ∈ rules2, ∃ y ∈ rules, x.lhs = y.lhs ∧ x.rhs.length ≤ y.rhs.length := by
  intro rules
  induction rules with
  | nil => intro rules2 d h; simp [discardFirst] at h
  | cons r rest ih =>
    intro rules2 d h
    rw [discardFirst] at h
    split at h
    · rename_i r2 dd hd
      simp only [Option.some.injEq, Prod.mk.injEq] at h
      obtain ⟨hspec1, hspec2⟩ := discard_spec hd
      rw [← h.1]
      constructor
      · rw [List.map_cons, List.map_cons, hspec1]
      · intro x hx
        rcases List.mem_cons.mp hx with h1 | h1
        · subst h1
          exact ⟨r, List.mem_cons_self _ _, hspec1, hspec2⟩
        · exact ⟨x, List.mem_cons_of_mem _ h1, rfl, Nat.le_refl _⟩
    · rename_i hd
      split at h
      · rename_i rest2 dd hrec
        simp only [Option.some.injEq, Prod.mk.injEq] at h
        obtain ⟨ih1, ih2⟩ := ih hrec
        rw [← h.1]
        constructor
        · rw [List.map_cons, List.map_cons, ih1]
        · intro x hx
          rcases List.mem_cons.mp hx with h1 | h1
          · subst h1
            exact ⟨x, List.mem_cons_self _ _, rfl, Nat.le_refl _⟩
          · obtain ⟨y, hy, hy1, hy2⟩ := ih2 x h1
            exact ⟨y, List.mem_cons_of_mem _ hy, hy1, hy2⟩
      · simp at h

theorem inv_remove_clauses (trs : TRS) (rule : Rule) (hinv : TRSInv trs) :
    TRSInv (trs.remove_clauses rule).1 := by
  obtain ⟨hne, hdet, hpw⟩ := hinv
  unfold TRS.remove_clauses
  split
  · rename_i rules2 d hdf
    obtain ⟨hlhse, hmems⟩ := discardFirst_spec hdf
    have hsubf : List.Sublist (rules2.filter fun r => !r.is_empty) rules2 := List.filter_sublist _
    refine ⟨?_, ?_, ?_⟩
    · intro x hx
      have := List.of_mem_filter hx
      simp only [Bool.not_eq_true', Rule.is_empty] at this
      exact fun hc => by rw [hc] at this; simp at this
    · intro hd x hx
      have hxr2 := hsubf.mem hx
      obtain ⟨y, hy, _, hlen⟩ := hmems x hxr2
      have hy1 := hdet hd y hy
      have hxne : x.rhs ≠ [] := by
        have := List.of_mem_filter hx
        simp only [Bool.not_eq_true', Rule.is_empty] at this
        exact fun hc => by rw [hc] at this; simp at this
      have hpos : 0 < x.rhs.length := List.length_pos.mpr hxne
      omega
    · exact (pairwise_lhs_transport hlhse hpw).sublist hsubf
  · exact ⟨hne, hdet, hpw⟩

theorem remove_idx_ok_inv {trs t1 : TRS} {idx : Nat} {r : Rule}
    (h : trs.remove_idx idx = (t1, .ok r)) : trs.rules[idx]? = some r := by
  unfold TRS.remove_idx at h
  split at h
  · rename_i r0 hr0
    simp only [Prod.mk.injEq, Except.ok.injEq] at h
    rw [hr0, h.2]
  · simp at h

theorem inv_move_rule (trs : TRS) (i j : Nat) (hinv : TRSInv trs) :
    TRSInv (trs.move_rule i j).1 := by
  unfold TRS.move_rule
  split
  · rcases hrem : trs.remove_idx i with ⟨t1, er⟩
    have hi1 : TRSInv t1 := by
      have := inv_remove_idx trs i hinv
      rw [hrem] at this
      exact this
    cases er with
    | ok r =>
      have hri := remove_idx_ok_inv hrem
      have hrne : r.rhs ≠ [] := hinv.1 r (mem_of_getElem2 hri)
      exact inv_insert t1 j r hi1 hrne
    | error e => exact hi1
  · exact hinv

theorem push_eq_of_get_none {trs t1 : TRS} {rule : Rule}
    (hins : trs.insert 0 rule = (t1, none)) (hg : t1.get rule.lhs = none) :
    trs.push rule = (t1, some TRSError.notInTRS) := by
  unfold TRS.push
  rw [hins]
  show (match t1.get rule.lhs with
        | some (idx, _) => t1.move_rule idx 0
        | none => (t1, some TRSError.notInTRS)) = (t1, some TRSError.notInTRS)
  rw [hg]

theorem inv_push (trs : TRS) (rule : Rule) (hinv : TRSInv trs) (hr : rule.rhs ≠ []) :
    TRSInv (trs.push rule).1 := by
  rcases hins : trs.insert 0 rule with ⟨t1, e⟩
  have hi1 : TRSInv t1 := by
    have := inv_insert trs 0 rule hinv hr
    rw [hins] at this
    exact this
  cases e with
  | some err =>
    rw [push_eq_of_ins_err hins]
    exact hi1
  | none =>
    rcases hg : t1.get rule.lhs with _ | ⟨jj, r2⟩
    · rw [push_eq_of_get_none hins hg]
      exact hi1
    · rw [push_eq_of_get_some hins hg]
      exact inv_move_rule t1 jj 0 hi1

theorem inv_pushesGo : ∀ (rules : List Rule) (trs : TRS), TRSInv trs →
    (∀ r ∈ rules, r.rhs ≠ []) → TRSInv (pushesGo trs rules).1 := by
  intro rules
  induction rules with
  | nil => intro trs hinv _; exact hinv
  | cons r rest ih =>
    intro trs hinv hr
    rw [pushesGo]
    rcases hp : trs.push r with ⟨t1, e⟩
    have hi1 : TRSInv t1 := by
      have := inv_push trs r hinv (hr r (List.mem_cons_self _ _))
      rw [hp] at this
      exact this
    cases e with
    | none => exact ih t1 hi1 fun x hx => hr x (List.mem_cons_of_mem _ hx)
    | some err => exact hi1

theorem inv_pushes (trs : TRS) (rules : List Rule) (hinv : TRSInv trs)
    (hr : ∀ r ∈ rules, r.rhs ≠ []) : TRSInv (trs.pushes rules).1 := by
  unfold TRS.pushes
  exact inv_pushesGo rules.reverse trs hinv fun x hx => hr x (List.mem_reverse.mp hx)

theorem inv_insertsIdxGo : ∀ (rules : List Rule) (trs : TRS) (idx : Nat), TRSInv trs →
    (∀ r ∈ rules, r.rhs ≠ []) → TRSInv (insertsIdxGo trs idx rules).1 := by
  intro rules
  induction rules with
  | nil => intro trs idx hinv _; exact hinv
  | cons r rest ih =>
    intro trs idx hinv hr
    rw [insertsIdxGo]
    rcases hp : trs.insert_idx idx r with ⟨t1, e⟩
    have hi1 : TRSInv t1 := by
      have := inv_insert_idx trs idx r hinv (hr r (List.mem_cons_self _ _))
      rw [hp] at this
      exact this
    cases e with
    | none => exact ih t1 idx hi1 fun x hx => hr x (List.mem_cons_of_mem _ hx)
    | some err => exact hi1

theorem inv_inserts_idx (trs : TRS) (idx : Nat) (rules : List Rule) (hinv : TRSInv trs)
    (hr : ∀ r ∈ rules, r.rhs ≠ []) : TRSInv (trs.inserts_idx idx rules).1 := by
  unfold TRS.inserts_idx
  exact inv_insertsIdxGo rules.reverse trs idx hinv fun x hx => hr x (List.mem_reverse.mp hx)

theorem inv_replace (trs : TRS) (idx : Nat) (rule1 rule2 : Rule) (hinv : TRSInv trs)
    (hr2 : rule2.rhs ≠ []) : TRSInv (trs.replace idx rule1 rule2).1 := by
  unfold TRS.replace
  rcases hrc : trs.remove_clauses rule1 with ⟨t1, er⟩
  have hi1 : TRSInv t1 := by
    have := inv_remove_clauses trs rule1 hinv
    rw [hrc] at this
    exact this
  cases er with
  | ok d => exact inv_insert t1 idx rule2 hi1 hr2
  | error e => exact hi1

theorem inv_make_deterministic (trs : TRS) (hinv : TRSInv trs) :
    TRSInv (trs.make_deterministic).1 := by
  obtain ⟨hne, hdet, hpw⟩ := hinv
  unfold TRS.make_deterministic
  split
  · refine ⟨?_, ?_, ?_⟩
    · intro x hx
      obtain ⟨y, hy, hye⟩ := List.mem_map.mp hx
      subst hye
      have := hne y hy
      cases hc : y.rhs with
      | nil => exact absurd hc this
      | cons a t => simp [hc]
    · intro _ x hx
      obtain ⟨y, hy, hye⟩ := List.mem_map.mp hx
      subst hye
      have := hne y hy
      cases hc : y.rhs with
      | nil => exact absurd hc this
      | cons a t => simp [hc]
    · refine pairwise_lhs_transport ?_ hpw
      rw [List.map_map]
      rfl
  · exact ⟨hne, hdet, hpw⟩

theorem inv_make_nondeterministic (trs : TRS) (hinv : TRSInv trs) :
    TRSInv (trs.make_nondeterministic).1 := by
  obtain ⟨hne, hdet, hpw⟩ := hinv
  unfold TRS.make_nondeterministic
  exact ⟨hne, fun hd => by simp at hd, hpw⟩

theorem inv_canonicalize (trs : TRS) (m : List (Nat × Nat)) (hinv : TRSInv trs)
    (hm : GoodMap m) : TRSInv (trs.canonicalize m).1 := by
  obtain ⟨hne, hdet, hpw⟩ := hinv
  unfold TRS.canonicalize
  obtain ⟨hg, _, hlhs, hcov, hlens⟩ := canonRules_spec m trs.rules hm
  refine ⟨?_, ?_, ?_⟩
  · intro x hx
    have hmm : x.rhs.length ∈ (canonRules m trs.rules).1.map fun r => r.rhs.length :=
      List.mem_map.mpr ⟨x, hx, rfl⟩
    rw [hlens] at hmm
    obtain ⟨y, hy, hye⟩ := List.mem_map.mp hmm
    have hyp : 0 < y.rhs.length := List.length_pos.mpr (hne y hy)
    intro hc
    rw [hc] at hye
    simp only [List.length_nil] at hye
    omega
  · intro hd x hx
    have hmm : x.rhs.length ∈ (canonRules m trs.rules).1.map fun r => r.rhs.length :=
      List.mem_map.mpr ⟨x, hx, rfl⟩
    rw [hlens] at hmm
    obtain ⟨y, hy, hye⟩ := List.mem_map.mp hmm
    have hy1 := hdet hd y hy
    rw [← hye]
    exact hy1
  · have h1 : (trs.rules.map fun r => renameVarsT (canonRules m trs.rules).2 r.lhs).Pairwise
        (fun a b => ¬(Term.alpha [(a, b)]).isSome) := by
      refine List.pairwise_map.mpr (hpw.imp_of_mem ?_)
      intro a b ha hb hab halpha
      exact hab (alpha_rename_reflect hg.2.1 (hcov a ha) (hcov b hb) halpha)
    rw [← hlhs] at h1
    exact List.pairwise_map.mp h1

theorem reachable_inv {trs : TRS} (h : Reachable trs) : TRSInv trs := by
  induction h with
  | new rules hwf =>
    unfold TRS.new
    exact inv_pushes ⟨false, []⟩ rules ⟨by simp, by simp, by simp⟩
      fun r hr => Rule.wf_rhs_ne (hwf r hr)
  | insert_idx trs idx rule h hr ih => exact inv_insert_idx trs idx rule ih (Rule.wf_rhs_ne hr)
  | insert_clauses trs rule h hr ih => exact inv_insert_clauses trs rule ih
  | insert trs idx rule h hr ih => exact inv_insert trs idx rule ih (Rule.wf_rhs_ne hr)
  | remove_idx trs idx h ih => exact inv_remove_idx trs idx ih
  | remove trs lhs h ih => exact inv_remove trs lhs ih
  | remove_clauses trs rule h ih => exact inv_remove_clauses trs rule ih
  | move_rule trs i j h ih => exact inv_move_rule trs i j ih
  | push trs rule h hr ih => exact inv_push trs rule ih (Rule.wf_rhs_ne hr)
  | pushes trs rules h hr ih =>
    exact inv_pushes trs rules ih fun r hrr => Rule.wf_rhs_ne (hr r hrr)
  | inserts_idx trs idx rules h hr ih =>
    exact inv_inserts_idx trs idx rules ih fun r hrr => Rule.wf_rhs_ne (hr r hrr)
  | replace trs idx rule1 rule2 h hr ih => exact inv_replace trs idx rule1 rule2 ih (Rule.wf_rhs_ne hr)
  | make_deterministic trs h ih => exact inv_make_deterministic trs ih
  | make_nondeterministic trs h ih => exact inv_make_nondeterministic trs ih
  | canonicalize trs m h hm ih => exact inv_canonicalize trs m ih hm

/-- Counterexample for C4 on both clauses.  First, insert_idx checks
determinism and bounds before the alpha-equivalence lookup, so
inserting the rule A = C at the out-of-range index 5 into a TRS that
already has a rule with LHS A returns InvalidIndex, not AlreadyInTRS.
Second, canonicalize with a caller-supplied mapping sending the
variable indices 0 and 1 to the same index 0 turns the two
non-alpha-equivalent LHSs J(x x) and J(x y) of a TRS built by TRS::new
from well-formed rules into the identical terms J(x x), which are
alpha-equivalent, so the distinct-LHS invariant does not survive every
public operation. -/
theorem claim4_counterexample :
    (Ex.trsOne.insert_idx 5 ⟨Ex.cA, [Ex.cC]⟩ = (Ex.trsOne, some (.invalidIndex 5 1)) ∧
      (Ex.trsOne.get Ex.cA).isSome) ∧
    (Ex.rJ00.wfb = true ∧ Ex.rJ01.wfb = true ∧
      ((TRS.new [Ex.rJ00, Ex.rJ01]).canonicalize [(0, 0), (1, 0)]).1.rules.map Rule.lhs =
        [Ex.tJ00, Ex.tJ00] ∧
      (Term.alpha [(Ex.tJ00, Ex.tJ00)]).isSome) := by
  refine ⟨⟨?_, ?_⟩, by decide, by decide, ?_, ?_⟩
  · simp +decide [TRS.insert_idx, TRS.get, getGo, Term.alpha, alphaGo, Ex.trsOne,
      Ex.ruleAB, Ex.cA, Ex.cB, Ex.cC]
  · simp +decide [TRS.get, getGo, Term.alpha, alphaGo, Ex.trsOne, Ex.ruleAB,
      Ex.cA, Ex.cB]
  · simp +decide [TRS.new, TRS.pushes, pushesGo, TRS.push, TRS.insert,
      TRS.insert_clauses, TRS.insert_idx, TRS.get, getGo, Term.alpha, alphaGo,
      TRS.move_rule, TRS.remove_idx, insertAt, TRS.canonicalize, canonRules,
      Rule.canonicalize, canonTerm, canonArgs, mapLookup, Ex.rJ00, Ex.rJ01,
      Ex.tJ00, Ex.tJ01, Ex.cA, Rule.len]
  · simp +decide [Term.alpha, alphaGo, Ex.tJ00]

/-- Claim C4 as amended: a TRS built by TRS::new from well-formed rules
and modified only through the public TRS operations, with canonicalize
restricted to well-formed variable mappings, never has two rules with
alpha-equivalent LHSs; and insert_idx answers AlreadyInTRS for a rule
whose LHS is alpha-equivalent to an existing one provided the
determinism check and the bounds check pass first. -/
theorem claim4_theorem :
    (∀ trs : TRS, Reachable trs →
      trs.rules.Pairwise fun r1 r2 => ¬(Term.alpha [(r1.lhs, r2.lhs)]).isSome) ∧
    (∀ (trs : TRS) (idx : Nat) (rule : Rule),
      ¬(trs.is_deterministic = true ∧ rule.len > 1) → idx ≤ trs.rules.length →
      (trs.get rule.lhs).isSome → trs.insert_idx idx rule = (trs, some .alreadyInTRS)) := by
  constructor
  · intro trs h
    exact (reachable_inv h).2.2
  · intro trs idx rule h1 h2 h3
    unfold TRS.insert_idx
    rw [if_neg h1, if_neg (by omega), if_pos h3]

/-- Witness for the C4 theorem: at index 0 with a single-clause rule,
inserting a rule whose LHS A is already present yields AlreadyInTRS
and no change. -/
theorem claim4_witness :
    Ex.trsOne.insert_idx 0 ⟨Ex.cA, [Ex.cC]⟩ = (Ex.trsOne, some .alreadyInTRS) :=
  claim4_theorem.2 Ex.trsOne 0 ⟨Ex.cA, [Ex.cC]⟩ (by decide) (by decide)
    (by simp +decide [TRS.get, getGo, Term.alpha, alphaGo, Ex.trsOne, Ex.ruleAB,
      Ex.cA, Ex.cB])

/-- Claim C5, confirmed: in deterministic mode every rule of a TRS
reachable through the public operations has exactly one RHS clause;
make_deterministic truncates every RHS to its first clause when the
flag was clear; insert_idx rejects multi-clause rules with
NondeterministicRule while the flag is set; and insert_clauses rejects
every rule while the flag is set. -/
theorem claim5_theorem :
    (∀ trs : TRS, Reachable trs → trs.is_deterministic = true →
      ∀ r ∈ trs.rules, r.rhs.length = 1) ∧
    (∀ trs : TRS, trs.is_deterministic = false →
      (trs.make_deterministic).1.rules = trs.rules.map fun r => ⟨r.lhs, r.rhs.take 1⟩) ∧
    (∀ (trs : TRS) (idx : Nat) (rule : Rule), trs.is_deterministic = true →
      rule.len > 1 → trs.insert_idx idx rule = (trs, some .nondeterministicRule)) ∧
    (∀ (trs : TRS) (rule : Rule), trs.is_deterministic = true →
      trs.insert_clauses rule = (trs, some .nondeterministicRule)) := by
  refine ⟨?_, ?_, ?_, ?_⟩
  · intro trs h hd
    exact (reachable_inv h).2.1 hd
  · intro trs hd
    unfold TRS.make_deterministic
    rw [hd]
    simp
  · intro trs idx rule hd hlen
    unfold TRS.insert_idx
    rw [if_pos ⟨hd, hlen⟩]
  · intro trs rule hd
    exact insert_clauses_eq_det rule hd

/-- Witness for the C5 theorem: make_deterministic on a one-rule
non-deterministic TRS with a two-clause rule truncates the RHS to its
first clause. -/
theorem claim5_witness :
    ((⟨false, [Ex.ruleAB2]⟩ : TRS).make_deterministic).1.rules =
      [⟨Ex.ruleAB2.lhs, Ex.ruleAB2.rhs.take 1⟩] :=
  claim5_theorem.2.1 ⟨false, [Ex.ruleAB2]⟩ rfl

end TermRewriting
